import Mathlib

/-!
# Verification of the tufzy multi-backend file resolution and layout-translation layer

This file gives a shallow embedding, in Lean 4, of the address-mapping and
layout-conversion core of the tufzy TUF client:

* the Go `strings` / `path` / `path/filepath` helpers the code relies on
  (`HasPrefix`, `TrimPrefix`, `TrimSuffix`, `Cut`, `Split`, `Base`, `Dir`,
  `Clean`, `Join`), embedded over `List Char`;
* the OCI registry backend (`RegistryFetcher`): `parseImgRef`,
  `roleFromConsistentName`, `isDelegatedRole`, `getManifest`,
  `pullFileLayer`, `getDataFromLayer`, `findFileInManifest`, `DownloadFile`,
  with the network, JSON decoding and digest parsing abstracted as an
  explicit environment and the in-memory cache as explicit state;
* the git-layout backend (`TufOnCiFetcher.mapTufOnCiURL`), modelled on the
  path component of the address (for the `file://<empty-host>/…` URLs this
  client builds, `url.Parse` / `URL.String` round-trip scheme and host
  unchanged, so the rewrite acts exactly on the path component);
* the filesystem/HTTP backend (`FilesystemFetcher.DownloadFile`) over an
  abstract filesystem and HTTP oracle;
* the layout converter (`LayoutFromTUFOnCI`), modelled as a function from a
  structured source layout to the ordered list of file writes it performs,
  paired with the error (if any) that aborted it.  Parsing performed by the
  external go-tuf library is modelled by the input carrying parsed values
  (`none` models a missing or unparseable file); `os.MkdirAll` failures
  (environment failures, not missing inputs) are not modelled.  The
  delegation traversal, which the source runs without cycle protection, is
  given explicit fuel.

Theorems at the end settle the behavioural claims about these components.
-/

/-- Go strings are modelled as lists of characters. -/
abbrev Str := List Char

/-! ## Embeddings of the Go standard-library string and path helpers -/

/-- Embedding of Go `strings.HasPrefix(s, pre)`. -/
def goHasPre (s pre : Str) : Bool := pre.isPrefixOf s

/-- Embedding of Go `strings.HasSuffix(s, suf)`. -/
def goHasSuf (s suf : Str) : Bool := suf.isSuffixOf s

/-- Embedding of Go `strings.TrimPrefix(s, pre)`. -/
def goTrimPre (s pre : Str) : Str :=
  if pre.isPrefixOf s then s.drop pre.length else s

/-- Embedding of Go `strings.TrimSuffix(s, suf)`. -/
def goTrimSuf (s suf : Str) : Str :=
  if suf.isSuffixOf s then s.take (s.length - suf.length) else s

/-- Embedding of Go `strings.Cut(s, sep)` for a one-character separator:
returns the text before the first occurrence of `sep`, the text after it,
and whether `sep` occurred. -/
def goCut : Str → Char → Str × Str × Bool
  | [], _ => ([], [], false)
  | c :: rest, sep =>
    if c = sep then ([], rest, true)
    else
      let r := goCut rest sep
      (c :: r.1, r.2.1, r.2.2)

/-- Embedding of Go `strings.Split(s, sep)` for a one-character separator.
Like the Go function it always returns a non-empty list (`Split("", sep)`
is `[""]`). -/
def goSplitOn (sep : Char) : Str → List Str
  | [] => [[]]
  | c :: rest =>
    match goSplitOn sep rest with
    | [] => [[]]
    | g :: gs => if c = sep then [] :: g :: gs else (c :: g) :: gs

/-- Embedding of Go `path.Base` / `path/filepath.Base` (identical on a
slash-separated platform): strip trailing slashes, then keep everything
after the last slash. -/
def goPathBase (p : Str) : Str :=
  if p = [] then ['.']
  else
    let p1 := (p.reverse.dropWhile (fun c => c = '/')).reverse
    let base := (p1.reverse.takeWhile (fun c => ¬ c = '/')).reverse
    if base = [] then ['/'] else base

/-- The portion of `p` up to and including its last slash (empty when `p`
has no slash); this is the string Go `filepath.Dir` passes to `Clean`. -/
def goDirPart (p : Str) : Str := (p.reverse.dropWhile (fun c => ¬ c = '/')).reverse

/-- Stack-based processing of the `..` path elements, as performed by the
inner loop of Go `path/filepath.Clean`: a `..` pops a preceding non-`..`
element, is dropped at the root, and is kept otherwise. -/
def cleanStack (rooted : Bool) : List Str → List Str → List Str
  | acc, [] => acc.reverse
  | acc, c :: cs =>
    if c = ['.', '.'] then
      match acc with
      | [] => if rooted then cleanStack rooted [] cs else cleanStack rooted [c] cs
      | top :: rest =>
        if top = ['.', '.'] then cleanStack rooted (c :: top :: rest) cs
        else cleanStack rooted rest cs
    else cleanStack rooted (c :: acc) cs

/-- Join path components with single slashes. -/
def goIntercalateSlash : List Str → Str
  | [] => []
  | [c] => c
  | c :: cs => c ++ '/' :: goIntercalateSlash cs

/-- Embedding of Go `path/filepath.Clean` on a slash-separated platform,
by its specified rewrite rules: collapse multiple slashes, drop `.`
elements, resolve `..` elements (dropping them at the root), returning
`.` for an empty result and preserving rootedness. -/
def goFilepathClean (p : Str) : Str :=
  if p = [] then ['.']
  else
    let rooted := p.head? = some '/'
    let comps := (goSplitOn '/' p).filter (fun c => ¬ (c = [] ∨ c = ['.']))
    let stack := cleanStack rooted [] comps
    let body := goIntercalateSlash stack
    if rooted then '/' :: body
    else if stack = [] then ['.'] else body

/-- Embedding of Go `path/filepath.Dir`: `Clean` of everything up to and
including the last slash. -/
def goFilepathDir (p : Str) : Str := goFilepathClean (goDirPart p)

/-- Embedding of Go `path/filepath.Join(a, b)`: skip empty elements, then
`Clean` of the slash-joined elements. -/
def goFilepathJoin (a b : Str) : Str :=
  if a = [] then (if b = [] then [] else goFilepathClean b)
  else goFilepathClean (a ++ '/' :: b)

/-- Embedding of Go `path/filepath.Join(a, b, c)` for non-empty elements. -/
def goFilepathJoin3 (a b c : Str) : Str :=
  if a = [] then goFilepathJoin b c
  else goFilepathClean (a ++ '/' :: b ++ '/' :: c)

example : goPathBase "/a/b/c.json".data = "c.json".data := by decide
example : goPathBase "c.json".data = "c.json".data := by decide
example : goFilepathDir "/a/b/c.json".data = "/a/b".data := by decide
example : goFilepathDir "c.json".data = ".".data := by decide
example : goFilepathClean "a//b/./c/../d".data = "a/b/d".data := by decide
example : goFilepathJoin "a/b".data "c".data = "a/b/c".data := by decide
example : goFilepathJoin ".".data "c".data = "c".data := by decide
example : goFilepathJoin3 "/out/targets".data ".".data "aa.f.txt".data
    = "/out/targets/aa.f.txt".data := by decide
example : goCut "a/b/c".data '/' = ("a".data, "b/c".data, true) := by decide
example : goSplitOn '.' "1.root.json".data = ["1".data, "root".data, "json".data] := by decide
example : goTrimSuf "1.root.json".data ".json".data = "1.root".data := by decide

/-! ## Registry backend: constants and address parsing (`oci_fetcher`) -/

/-- The `tuf.io/filename` annotation key (constant `TUFFilenameAnnotation`). -/
def tufFilenameKey : Str := "tuf.io/filename".data

/-- Constant `LatestTag`. -/
def latestTag : Str := "latest".data

/-- Media type `types.OCIImageIndex`. -/
def ociImageIndexMT : Str := "application/vnd.oci.image.index.v1+json".data

/-- Media type `types.OCIManifestSchema1`. -/
def ociManifestMT : Str := "application/vnd.oci.image.manifest.v1+json".data

/-- The four top-level TUF role names (`Roles`, from go-tuf's
`metadata.ROOT`, `metadata.SNAPSHOT`, `metadata.TARGETS`,
`metadata.TIMESTAMP`). -/
def topLevelRoles : List Str :=
  ["root".data, "snapshot".data, "targets".data, "timestamp".data]

/-- The configuration fields of a `RegistryFetcher` relevant to address
resolution (the cache and timeout are modelled separately as explicit
state). -/
structure RegistryFetcher where
  metadataRepo : Str
  metadataTag : Str
  targetsRepo : Str
  targetsTag : Str
  metadataURL : Str
  targetsURL : Str

/-- Embedding of `isDelegatedRole`: a role is delegated iff it is none of
the four top-level roles. -/
def isDelegatedRole (role : Str) : Bool :=
  if topLevelRoles.any (fun r => role = r) then false else true

/-- Embedding of `roleFromConsistentName`: trim the `.json` suffix, split
on `.`, and return the second component when there are at least two,
otherwise the sole component.  (`strings.Split` never returns an empty
list, so the `[]` case is unreachable.) -/
def roleFromConsistentName (filename : Str) : Str :=
  let name := goTrimSuf filename ".json".data
  match goSplitOn '.' name with
  | [] => []
  | [r] => r
  | _ :: r :: _ => r

/-- Embedding of `RegistryFetcher.parseImgRef`: resolve a URL path to a
registry image reference and the file name to search for, or `none` for
the "must be in metadata or targets repo" configuration error. -/
def parseImgRef (d : RegistryFetcher) (urlPath : Str) : Option (Str × Str) :=
  if goHasPre urlPath d.targetsURL then
    let target := goTrimPre urlPath (d.targetsURL ++ ['/'])
    let c := goCut target '/'
    if c.2.2 then
      some (d.targetsRepo ++ ':' :: c.1, c.1 ++ '/' :: c.2.1)
    else
      some (d.targetsRepo ++ ':' :: target, target)
  else if goHasPre urlPath d.metadataURL then
    let fileName := goPathBase urlPath
    let role := roleFromConsistentName fileName
    if isDelegatedRole role then
      some (d.metadataRepo ++ ':' :: role, fileName)
    else
      some (d.metadataRepo ++ ':' :: d.metadataTag, fileName)
  else
    none

/-- The example fetcher used by the concrete instances below, matching the
shape produced by `NewRegistryFetcher ("oci://registry.example.com/repo/metadata:latest",
"oci://registry.example.com/repo/targets:latest")`. -/
def exFetcher : RegistryFetcher where
  metadataRepo := "registry.example.com/repo/metadata".data
  metadataTag := latestTag
  targetsRepo := "registry.example.com/repo/targets".data
  targetsTag := latestTag
  metadataURL := "oci://registry.example.com/repo/metadata:latest".data
  targetsURL := "oci://registry.example.com/repo/targets:latest".data

example : parseImgRef exFetcher "oci://registry.example.com/repo/targets:latest/subdir/file.txt".data
    = some ("registry.example.com/repo/targets:subdir".data, "subdir/file.txt".data) := by decide
example : parseImgRef exFetcher "oci://registry.example.com/repo/targets:latest/abc123.file.txt".data
    = some ("registry.example.com/repo/targets:abc123.file.txt".data, "abc123.file.txt".data) := by
  decide
example : parseImgRef exFetcher "oci://registry.example.com/repo/metadata:latest/1.root.json".data
    = some ("registry.example.com/repo/metadata:latest".data, "1.root.json".data) := by decide
example : parseImgRef exFetcher "oci://registry.example.com/repo/metadata:latest/role.json".data
    = some ("registry.example.com/repo/metadata:role".data, "role.json".data) := by decide
example : parseImgRef exFetcher "oci://registry.example.com/other/file.txt".data = none := by decide

/-! ## Basic lemmas about the string helpers -/

theorem isPrefixOf_append_self (a b : Str) : a.isPrefixOf (a ++ b) = true := by
  induction a with
  | nil => simp [List.isPrefixOf]
  | cons c cs ih => simp [List.isPrefixOf, ih]

theorem goHasPre_append (pre rest : Str) : goHasPre (pre ++ rest) pre = true := by
  simp [goHasPre, isPrefixOf_append_self]

theorem goTrimPre_append (pre rest : Str) : goTrimPre (pre ++ rest) pre = rest := by
  simp [goTrimPre, isPrefixOf_append_self]

theorem goCut_no_sep (s : Str) (sep : Char) (h : sep ∉ s) : goCut s sep = (s, [], false) := by
  induction s with
  | nil => rfl
  | cons c cs ih =>
    have hc : ¬ c = sep := fun hcs => h (hcs ▸ List.mem_cons_self c cs)
    have ihc := ih (fun hm => h (List.mem_cons_of_mem c hm))
    simp [goCut, hc, ihc]

theorem goCut_split (sub nm : Str) (sep : Char) (h : sep ∉ sub) :
    goCut (sub ++ sep :: nm) sep = (sub, nm, true) := by
  induction sub with
  | nil => simp [goCut]
  | cons c cs ih =>
    have hc : ¬ c = sep := fun hcs => h (hcs ▸ List.mem_cons_self c cs)
    have ihc := ih (fun hm => h (List.mem_cons_of_mem c hm))
    simp [goCut, hc, ihc]

/-! ## Claim theorems about targets-path resolution -/

/-- C1.  A fetch whose URL path lies under the configured targets
repository prefix resolves as follows: if the remainder after the prefix
contains a path separator, the image reference is
`targetsRepo:<first segment>` and the file name searched for is the full
remainder; otherwise the whole remainder is both the tag and the file
name.  In particular `…/subdir/file.txt` yields tag `subdir` with file
name `subdir/file.txt`, and `…/file.txt` yields tag `file.txt` with file
name `file.txt`. -/
theorem parseImgRef_targets_resolution :
    (∀ (f : RegistryFetcher) (sub nm : Str), '/' ∉ sub →
      parseImgRef f (f.targetsURL ++ '/' :: (sub ++ '/' :: nm)) =
        some (f.targetsRepo ++ ':' :: sub, sub ++ '/' :: nm))
  ∧ (∀ (f : RegistryFetcher) (rest : Str), '/' ∉ rest →
      parseImgRef f (f.targetsURL ++ '/' :: rest) =
        some (f.targetsRepo ++ ':' :: rest, rest))
  ∧ parseImgRef exFetcher (exFetcher.targetsURL ++ "/subdir/file.txt".data) =
      some (exFetcher.targetsRepo ++ ":subdir".data, "subdir/file.txt".data)
  ∧ parseImgRef exFetcher (exFetcher.targetsURL ++ "/file.txt".data) =
      some (exFetcher.targetsRepo ++ ":file.txt".data, "file.txt".data) := by
  refine ⟨?_, ?_, by decide, by decide⟩
  · intro f sub nm h
    have h1 : f.targetsURL ++ '/' :: (sub ++ '/' :: nm)
        = (f.targetsURL ++ ['/']) ++ (sub ++ '/' :: nm) := by simp
    have h2 : goHasPre (f.targetsURL ++ '/' :: (sub ++ '/' :: nm)) f.targetsURL = true :=
      goHasPre_append _ _
    simp only [parseImgRef, h2, if_true]
    rw [h1, goTrimPre_append, goCut_split _ _ _ h]
    simp
  · intro f rest h
    have h1 : f.targetsURL ++ '/' :: rest = (f.targetsURL ++ ['/']) ++ rest := by simp
    have h2 : goHasPre (f.targetsURL ++ '/' :: rest) f.targetsURL = true :=
      goHasPre_append _ _
    simp only [parseImgRef, h2, if_true]
    rw [h1, goTrimPre_append, goCut_no_sep _ _ h]
    simp

/-- Witness for `parseImgRef_targets_resolution` at concrete inputs. -/
theorem parseImgRef_targets_resolution_witness :
    parseImgRef exFetcher (exFetcher.targetsURL ++ '/' :: ("sub".data ++ '/' :: "f.txt".data)) =
      some (exFetcher.targetsRepo ++ ':' :: "sub".data, "sub".data ++ '/' :: "f.txt".data) :=
  parseImgRef_targets_resolution.1 exFetcher "sub".data "f.txt".data (by decide)

theorem takeWhile_append_of_all (p : Char → Bool) (l : Str) (x : Char) (r : Str)
    (hl : ∀ c ∈ l, p c = true) (hx : p x = false) : (l ++ x :: r).takeWhile p = l := by
  induction l with
  | nil => simp [List.takeWhile, hx]
  | cons c cs ih =>
    have hc := hl c (List.mem_cons_self c cs)
    have ihc := ih (fun d hd => hl d (List.mem_cons_of_mem c hd))
    simp [List.takeWhile, hc, ihc]

theorem dropWhile_cons_of_false (p : Char → Bool) (c : Char) (l : Str)
    (hc : p c = false) : (c :: l).dropWhile p = c :: l := by
  simp [List.dropWhile, hc]

theorem goPathBase_append (s t : Str) (ht : t ≠ []) (h : '/' ∉ t) :
    goPathBase (s ++ '/' :: t) = t := by
  have hne : ¬ (s ++ '/' :: t) = ([] : Str) := by simp
  obtain ⟨c, cs, hct⟩ : ∃ c cs, t.reverse = c :: cs := by
    cases htr : t.reverse with
    | nil =>
      exfalso
      exact ht (by simpa using congrArg List.reverse htr)
    | cons c cs => exact ⟨c, cs, rfl⟩
  have hmem : ∀ d ∈ t.reverse, d ≠ '/' := by
    intro d hd
    exact fun hdeq => h (hdeq ▸ List.mem_reverse.mp hd)
  have hcne : c ≠ '/' := hmem c (hct ▸ List.mem_cons_self c cs)
  have hrev : (s ++ '/' :: t).reverse = c :: (cs ++ '/' :: s.reverse) := by
    simp [hct.symm ▸ (rfl : t.reverse = t.reverse), List.reverse_append]
    simp [hct]
  have hdrop : ((s ++ '/' :: t).reverse).dropWhile (fun c => c = '/')
      = (s ++ '/' :: t).reverse := by
    rw [hrev]
    exact dropWhile_cons_of_false _ c _ (by simp [hcne])
  have htake : ((s ++ '/' :: t).reverse).takeWhile (fun c => ¬ c = '/') = t.reverse := by
    rw [hrev]
    have h2 := takeWhile_append_of_all (fun c => ¬ c = '/') (c :: cs) '/' s.reverse
      (by intro d hd; simpa using hmem d (hct ▸ hd)) (by simp)
    rw [List.cons_append] at h2
    rw [h2, ← hct]
  simp only [goPathBase, hne, if_false, List.reverse_reverse]
  rw [hdrop, htake, List.reverse_reverse]
  simp [ht]

theorem goTrimSuf_append (x suf : Str) : goTrimSuf (x ++ suf) suf = x := by
  have hsuf : suf.isSuffixOf (x ++ suf) = true := by
    simp only [List.isSuffixOf, List.reverse_append]
    exact isPrefixOf_append_self _ _
  simp [goTrimSuf, hsuf]

theorem goSplitOn_ne_nil (sep : Char) (s : Str) : goSplitOn sep s ≠ [] := by
  cases s with
  | nil => simp [goSplitOn]
  | cons c rest =>
    simp only [goSplitOn]
    cases goSplitOn sep rest with
    | nil => simp
    | cons g gs =>
      by_cases hc : c = sep <;> simp [hc]

theorem goSplitOn_no_sep (sep : Char) (r : Str) (h : sep ∉ r) : goSplitOn sep r = [r] := by
  induction r with
  | nil => rfl
  | cons c cs ih =>
    have hc : ¬ c = sep := fun hcs => h (hcs ▸ List.mem_cons_self c cs)
    have ihc := ih (fun hm => h (List.mem_cons_of_mem c hm))
    simp [goSplitOn, ihc, hc]

theorem goSplitOn_append (sep : Char) (v w : Str) (h : sep ∉ v) :
    goSplitOn sep (v ++ sep :: w) = v :: goSplitOn sep w := by
  induction v with
  | nil =>
    simp only [List.nil_append, goSplitOn]
    cases hw : goSplitOn sep w with
    | nil => exact absurd hw (goSplitOn_ne_nil sep w)
    | cons g gs => simp
  | cons c cs ih =>
    have hc : ¬ c = sep := fun hcs => h (hcs ▸ List.mem_cons_self c cs)
    have ihc := ih (fun hm => h (List.mem_cons_of_mem c hm))
    simp only [List.cons_append, goSplitOn, List.append_eq]
    rw [ihc]
    simp [hc]

theorem goSplitOn_head (sep : Char) (w : Str) :
    ∃ gs, goSplitOn sep w = (w.takeWhile (fun c => ¬ c = sep)) :: gs := by
  induction w with
  | nil => exact ⟨[], rfl⟩
  | cons c cs ih =>
    obtain ⟨gs, hgs⟩ := ih
    have hunfold : goSplitOn sep (c :: cs)
        = if c = sep then [] :: (cs.takeWhile (fun d => ¬ d = sep)) :: gs
          else (c :: cs.takeWhile (fun d => ¬ d = sep)) :: gs := by
      simp only [goSplitOn]
      rw [hgs]
    by_cases hc : c = sep
    · refine ⟨(cs.takeWhile (fun d => ¬ d = sep)) :: gs, ?_⟩
      rw [hunfold, if_pos hc]
      congr 1
      simp [List.takeWhile, hc]
    · refine ⟨gs, ?_⟩
      rw [hunfold, if_neg hc]
      congr 1
      simp [List.takeWhile, hc]

theorem roleFromConsistentName_versioned (v w : Str) (hv : '.' ∉ v) :
    roleFromConsistentName ((v ++ '.' :: w) ++ ".json".data)
      = w.takeWhile (fun c => ¬ c = '.') := by
  obtain ⟨gs, hgs⟩ := goSplitOn_head '.' w
  simp only [roleFromConsistentName, goTrimSuf_append]
  rw [goSplitOn_append '.' v w hv, hgs]

theorem roleFromConsistentName_simple (r : Str) (hr : '.' ∉ r) :
    roleFromConsistentName (r ++ ".json".data) = r := by
  simp only [roleFromConsistentName, goTrimSuf_append]
  rw [goSplitOn_no_sep '.' r hr]

theorem isDelegatedRole_iff (role : Str) :
    isDelegatedRole role = true ↔ role ∉ topLevelRoles := by
  unfold isDelegatedRole
  by_cases h : topLevelRoles.any (fun r => role = r) = true
  · obtain ⟨x, hx, hrx⟩ := List.any_eq_true.mp h
    have hxr : role = x := by simpa using hrx
    simp [h, hxr ▸ hx]
  · have hnm : role ∉ topLevelRoles := by
      intro hm
      exact h (List.any_eq_true.mpr ⟨role, hm, by simp⟩)
    simp [h, hnm]

/-! ## Claim-side definition for metadata role derivation (for C2) -/

/-- The role name a metadata filename denotes according to the claim's own
wording: strip an optional leading `{version}.` numeric prefix and the
`.json` suffix.  This definition follows the specification text, for
comparison with the source's `roleFromConsistentName`. -/
def claimMetadataRole (filename : Str) : Str :=
  let name := goTrimSuf filename ".json".data
  let ver := name.takeWhile (fun c => c.isDigit)
  let rest := name.dropWhile (fun c => c.isDigit)
  if ¬ ver = [] ∧ rest.head? = some '.' then rest.tail else name

/-- The metadata image reference the claim describes: repository plus the
current metadata tag for a top-level role, repository plus the role name
for a delegated role, with the role derived by `claimMetadataRole`. -/
def claimMetadataImgRef (d : RegistryFetcher) (urlPath : Str) : Str :=
  let role := claimMetadataRole (goPathBase urlPath)
  if role ∈ topLevelRoles then d.metadataRepo ++ ':' :: d.metadataTag
  else d.metadataRepo ++ ':' :: role

/-- A metadata request for the consistent-snapshot file `1.a.b.json` of a
delegated role named `a.b`. -/
def cexMetaPath : Str := exFetcher.metadataURL ++ "/1.a.b.json".data

/-- C2 counterexample.  On the metadata file name `1.a.b.json` (version 1
of a delegated role named `a.b`), the code resolves the tag to `a` — the
second dot-separated component — while the claim's rule (strip the
leading numeric `{version}.` prefix and the `.json` suffix) yields the
role `a.b`; the resolved image references differ. -/
theorem parseImgRef_metadata_spec_counterexample :
    (parseImgRef exFetcher cexMetaPath).map Prod.fst
      = some ("registry.example.com/repo/metadata:a".data)
  ∧ claimMetadataImgRef exFetcher cexMetaPath
      = "registry.example.com/repo/metadata:a.b".data
  ∧ ¬ (parseImgRef exFetcher cexMetaPath).map Prod.fst
      = some (claimMetadataImgRef exFetcher cexMetaPath) := by decide

/-- C2 (amended).  For a fetch whose URL path lies under the metadata
repository prefix (and not under the targets prefix), the file name is the
base name of the path; the role name is obtained by stripping the `.json`
suffix and, when the remaining name contains a dot, taking the *second*
dot-separated component — the leading component is stripped whether or not
it is numeric, and any components after the second are dropped — otherwise
the whole name.  If that role is one of the four top-level roles the tag is
the configured current metadata tag, otherwise the tag is the role name. -/
theorem parseImgRef_metadata_resolution :
    (∀ (f : RegistryFetcher) (v w : Str),
      goHasPre (f.metadataURL ++ '/' :: ((v ++ '.' :: w) ++ ".json".data)) f.targetsURL = false →
      '.' ∉ v → '/' ∉ v → '/' ∉ w →
      parseImgRef f (f.metadataURL ++ '/' :: ((v ++ '.' :: w) ++ ".json".data)) =
        some (f.metadataRepo ++ ':' ::
            (if w.takeWhile (fun c => ¬ c = '.') ∈ topLevelRoles then f.metadataTag
             else w.takeWhile (fun c => ¬ c = '.')),
          (v ++ '.' :: w) ++ ".json".data))
  ∧ (∀ (f : RegistryFetcher) (r : Str),
      goHasPre (f.metadataURL ++ '/' :: (r ++ ".json".data)) f.targetsURL = false →
      '.' ∉ r → '/' ∉ r →
      parseImgRef f (f.metadataURL ++ '/' :: (r ++ ".json".data)) =
        some (f.metadataRepo ++ ':' :: (if r ∈ topLevelRoles then f.metadataTag else r),
          r ++ ".json".data)) := by
  constructor
  · intro f v w h0 hv hvs hws
    have hslash : '/' ∉ ((v ++ '.' :: w) ++ ".json".data) := by
      intro hm
      rcases List.mem_append.mp hm with hm1 | hm2
      · rcases List.mem_append.mp hm1 with hv1 | hw1
        · exact hvs hv1
        · rcases List.mem_cons.mp hw1 with he | hw2
          · exact absurd he (by decide)
          · exact hws hw2
      · exact absurd hm2 (by decide)
    have hbase : goPathBase (f.metadataURL ++ '/' :: ((v ++ '.' :: w) ++ ".json".data))
        = (v ++ '.' :: w) ++ ".json".data :=
      goPathBase_append _ _ (by simp) hslash
    have hmd : goHasPre (f.metadataURL ++ '/' :: ((v ++ '.' :: w) ++ ".json".data))
        f.metadataURL = true := goHasPre_append _ _
    simp only [parseImgRef, h0, Bool.false_eq_true, if_false, hmd, if_true, hbase,
      roleFromConsistentName_versioned v w hv]
    by_cases hmem : w.takeWhile (fun c => ¬ c = '.') ∈ topLevelRoles
    · have hd : ¬ isDelegatedRole (w.takeWhile (fun c => ¬ c = '.')) = true := by
        rw [isDelegatedRole_iff]
        simpa using hmem
      simp only [decide_not] at hd hmem
      simp [hd, hmem]
    · have hd : isDelegatedRole (w.takeWhile (fun c => ¬ c = '.')) = true :=
        (isDelegatedRole_iff _).mpr hmem
      simp only [decide_not] at hd hmem
      simp [hd, hmem]
  · intro f r h0 hr hrs
    have hslash : '/' ∉ (r ++ ".json".data) := by
      intro hm
      rcases List.mem_append.mp hm with hm1 | hm2
      · exact hrs hm1
      · exact absurd hm2 (by decide)
    have hbase : goPathBase (f.metadataURL ++ '/' :: (r ++ ".json".data))
        = r ++ ".json".data :=
      goPathBase_append _ _ (by simp) hslash
    have hmd : goHasPre (f.metadataURL ++ '/' :: (r ++ ".json".data))
        f.metadataURL = true := goHasPre_append _ _
    simp only [parseImgRef, h0, Bool.false_eq_true, if_false, hmd, if_true, hbase,
      roleFromConsistentName_simple r hr]
    by_cases hmem : r ∈ topLevelRoles
    · have hd : ¬ isDelegatedRole r = true := by
        rw [isDelegatedRole_iff]
        simpa using hmem
      simp [hd, hmem]
    · have hd : isDelegatedRole r = true := (isDelegatedRole_iff _).mpr hmem
      simp [hd, hmem]

/-- Witness for `parseImgRef_metadata_resolution` at concrete inputs:
`1.root.json` resolves to the current metadata tag, `opkl.json` to the
delegated tag `opkl`. -/
theorem parseImgRef_metadata_resolution_witness :
    parseImgRef exFetcher (exFetcher.metadataURL ++ '/' :: (("1".data ++ '.' :: "root".data)
        ++ ".json".data)) =
      some (exFetcher.metadataRepo ++ ':' ::
          (if "root".data.takeWhile (fun c => ¬ c = '.') ∈ topLevelRoles then exFetcher.metadataTag
           else "root".data.takeWhile (fun c => ¬ c = '.')),
        ("1".data ++ '.' :: "root".data) ++ ".json".data)
  ∧ parseImgRef exFetcher (exFetcher.metadataURL ++ '/' :: ("opkl".data ++ ".json".data)) =
      some (exFetcher.metadataRepo ++ ':' ::
          (if "opkl".data ∈ topLevelRoles then exFetcher.metadataTag else "opkl".data),
        "opkl".data ++ ".json".data) :=
  ⟨parseImgRef_metadata_resolution.1 exFetcher "1".data "root".data (by decide) (by decide)
      (by decide) (by decide),
    parseImgRef_metadata_resolution.2 exFetcher "opkl".data (by decide) (by decide) (by decide)⟩

/-! ## Git-layout backend: path-cleaning lemmas -/

/-- A plain path component: non-empty and neither `.` nor `..`. -/
def plainComp (c : Str) : Bool := ¬ (c = [] ∨ c = ['.'] ∨ c = ['.', '.'])

/-- A relative path all of whose slash-separated components are plain
(so in particular no leading, trailing or doubled slashes). -/
def plainRel (d : Str) : Bool := (goSplitOn '/' d).all plainComp

/-- A clean directory path: either relative with plain components, or a
leading slash followed by such a path. -/
def plainDir (d : Str) : Bool :=
  if d.head? = some '/' then plainRel d.tail else plainRel d

theorem dropWhile_append_of_all (p : Char → Bool) (l : Str) (x : Char) (r : Str)
    (hl : ∀ c ∈ l, p c = true) (hx : p x = false) : (l ++ x :: r).dropWhile p = x :: r := by
  induction l with
  | nil => simp [List.dropWhile, hx]
  | cons c cs ih =>
    have hc := hl c (List.mem_cons_self c cs)
    have ihc := ih (fun d hd => hl d (List.mem_cons_of_mem c hd))
    simp [List.dropWhile, hc, ihc]

theorem filter_of_all_plain (l : List Str) (h : ∀ c ∈ l, plainComp c = true) :
    l.filter (fun c => ¬ (c = [] ∨ c = ['.'])) = l := by
  apply List.filter_eq_self.mpr
  intro a ha
  have h1 := h a ha
  simp only [plainComp, decide_eq_true_eq] at h1
  simp only [decide_eq_true_eq]
  tauto

theorem plainRel_all (d : Str) (h : plainRel d = true) :
    ∀ c ∈ goSplitOn '/' d, plainComp c = true := by
  simpa [plainRel, List.all_eq_true] using h

theorem cleanStack_no_dotdot (rooted : Bool) (comps : List Str)
    (h : ∀ c ∈ comps, ¬ c = ['.', '.']) :
    ∀ acc, cleanStack rooted acc comps = acc.reverse ++ comps := by
  induction comps with
  | nil => intro acc; simp [cleanStack]
  | cons c cs ih =>
    intro acc
    have hc := h c (List.mem_cons_self c cs)
    have ihc := ih (fun d hd => h d (List.mem_cons_of_mem c hd)) (c :: acc)
    simp [cleanStack, hc, ihc]

theorem goIntercalateSlash_cons_cons (c : Char) (g : Str) (gs : List Str) :
    goIntercalateSlash ((c :: g) :: gs) = c :: goIntercalateSlash (g :: gs) := by
  cases gs <;> rfl

theorem goIntercalateSlash_nil_cons (g : Str) (gs : List Str) :
    goIntercalateSlash ([] :: g :: gs) = '/' :: goIntercalateSlash (g :: gs) := rfl

theorem goSplitOn_cons_sep (sep : Char) (rest : Str) :
    goSplitOn sep (sep :: rest) = [] :: goSplitOn sep rest := by
  obtain ⟨g, gs, hg⟩ := List.exists_cons_of_ne_nil (goSplitOn_ne_nil sep rest)
  simp [goSplitOn, hg]

theorem goIntercalateSlash_splitOn (d : Str) :
    goIntercalateSlash (goSplitOn '/' d) = d := by
  induction d with
  | nil => rfl
  | cons c rest ih =>
    obtain ⟨g, gs, hg⟩ := List.exists_cons_of_ne_nil (goSplitOn_ne_nil '/' rest)
    by_cases hc : c = '/'
    · subst hc
      rw [goSplitOn_cons_sep, hg, goIntercalateSlash_nil_cons, ← hg, ih]
    · simp only [goSplitOn, hg, hc, if_false, goIntercalateSlash_cons_cons]
      rw [← hg, ih]

theorem goSplitOn_append_last (sep : Char) (d fn : Str) (h : sep ∉ fn) :
    goSplitOn sep (d ++ sep :: fn) = goSplitOn sep d ++ [fn] := by
  induction d with
  | nil => simp [goSplitOn_cons_sep, goSplitOn_no_sep sep fn h, goSplitOn]
  | cons c cs ih =>
    obtain ⟨g, gs, hg⟩ := List.exists_cons_of_ne_nil (goSplitOn_ne_nil sep cs)
    simp only [List.cons_append, goSplitOn, List.append_eq]
    rw [ih, hg, List.cons_append]
    by_cases hc : c = sep <;> simp [hc]

theorem goFilepathClean_plain_comps (p : Str) (hp : ¬ p = [])
    (C : List Str)
    (hfil : (goSplitOn '/' p).filter (fun c => ¬ (c = [] ∨ c = ['.'])) = C)
    (hplain : ∀ c ∈ C, plainComp c = true) (hCne : ¬ C = []) :
    goFilepathClean p = (if p.head? = some '/' then '/' :: goIntercalateSlash C
                         else goIntercalateSlash C) := by
  have hdd : ∀ c ∈ C, ¬ c = ['.', '.'] := by
    intro c hc heq
    have hpc := hplain c hc
    subst heq
    simp [plainComp] at hpc
  simp only [goFilepathClean, hp, if_false]
  rw [hfil, cleanStack_no_dotdot _ C hdd []]
  simp only [List.reverse_nil, List.nil_append]
  by_cases hr : p.head? = some '/'
  · simp [hr]
  · simp [hr, hCne]

theorem clean_of_plainDir (d : Str) (h : plainDir d = true) : goFilepathClean d = d := by
  cases d with
  | nil => exact absurd h (by decide)
  | cons c rest =>
    by_cases hc : c = '/'
    · subst hc
      have hrel : plainRel rest = true := by simpa [plainDir] using h
      have hfil : (goSplitOn '/' ('/' :: rest)).filter (fun c => ¬ (c = [] ∨ c = ['.']))
          = goSplitOn '/' rest := by
        simp only [goSplitOn_cons_sep, List.filter_cons]
        have hkeep := filter_of_all_plain (goSplitOn '/' rest) (plainRel_all rest hrel)
        simp [hkeep]
        intro a ha
        have hpa := plainRel_all rest hrel a ha
        simp [plainComp] at hpa
        tauto
      rw [goFilepathClean_plain_comps ('/' :: rest) (by simp) _ hfil
        (plainRel_all rest hrel) (goSplitOn_ne_nil '/' rest)]
      simp [goIntercalateSlash_splitOn]
    · have hrel : plainRel (c :: rest) = true := by simpa [plainDir, hc] using h
      have hfil := filter_of_all_plain (goSplitOn '/' (c :: rest)) (plainRel_all _ hrel)
      rw [goFilepathClean_plain_comps (c :: rest) (by simp) _ hfil
        (plainRel_all _ hrel) (goSplitOn_ne_nil '/' (c :: rest))]
      simp [hc, goIntercalateSlash_splitOn]

theorem clean_dir_slash (d : Str) (h : plainDir d = true) :
    goFilepathClean (d ++ ['/']) = d := by
  cases d with
  | nil => exact absurd h (by decide)
  | cons c rest =>
    have hsp : goSplitOn '/' ((c :: rest) ++ ['/'])
        = goSplitOn '/' (c :: rest) ++ [[]] := by
      have he : (c :: rest) ++ ['/'] = (c :: rest) ++ '/' :: ([] : Str) := rfl
      rw [he, goSplitOn_append_last '/' (c :: rest) [] (by simp)]
    by_cases hc : c = '/'
    · subst hc
      have hrel : plainRel rest = true := by simpa [plainDir] using h
      have hfil : (goSplitOn '/' (('/' :: rest) ++ ['/'])).filter
          (fun c => ¬ (c = [] ∨ c = ['.'])) = goSplitOn '/' rest := by
        rw [hsp, goSplitOn_cons_sep]
        have hkeep := filter_of_all_plain (goSplitOn '/' rest) (plainRel_all rest hrel)
        simp [List.filter_append, List.filter_cons, hkeep]
        intro a ha
        have hpa := plainRel_all rest hrel a ha
        simp [plainComp] at hpa
        tauto
      rw [goFilepathClean_plain_comps _ (by simp) _ hfil
        (plainRel_all rest hrel) (goSplitOn_ne_nil '/' rest)]
      simp [goIntercalateSlash_splitOn]
    · have hrel : plainRel (c :: rest) = true := by simpa [plainDir, hc] using h
      have hfil : (goSplitOn '/' ((c :: rest) ++ ['/'])).filter
          (fun c => ¬ (c = [] ∨ c = ['.'])) = goSplitOn '/' (c :: rest) := by
        rw [hsp]
        have hkeep := filter_of_all_plain (goSplitOn '/' (c :: rest)) (plainRel_all _ hrel)
        simp [List.filter_append, hkeep]
        intro a ha
        have hpa := plainRel_all _ hrel a ha
        simp [plainComp] at hpa
        tauto
      rw [goFilepathClean_plain_comps _ (by simp) _ hfil
        (plainRel_all _ hrel) (goSplitOn_ne_nil '/' (c :: rest))]
      simp [hc, goIntercalateSlash_splitOn]

theorem plainDir_append (d fn : Str) (hd : plainDir d = true)
    (hfn : plainComp fn = true) (hs : '/' ∉ fn) : plainDir (d ++ '/' :: fn) = true := by
  cases d with
  | nil => exact absurd hd (by decide)
  | cons c rest =>
    by_cases hc : c = '/'
    · subst hc
      have hrel : plainRel rest = true := by simpa [plainDir] using hd
      have hall : ∀ x ∈ goSplitOn '/' rest ++ [fn], plainComp x = true := by
        intro x hx
        rcases List.mem_append.mp hx with h1 | h2
        · exact plainRel_all rest hrel x h1
        · simp at h2
          subst h2
          exact hfn
      have hrel2 : plainRel (rest ++ '/' :: fn) = true := by
        rw [plainRel, goSplitOn_append_last '/' rest fn hs]
        exact List.all_eq_true.mpr hall
      simpa [plainDir] using hrel2
    · have hrel : plainRel (c :: rest) = true := by simpa [plainDir, hc] using hd
      have hall : ∀ x ∈ goSplitOn '/' (c :: rest) ++ [fn], plainComp x = true := by
        intro x hx
        rcases List.mem_append.mp hx with h1 | h2
        · exact plainRel_all _ hrel x h1
        · simp at h2
          subst h2
          exact hfn
      have hrel2 : plainRel ((c :: rest) ++ '/' :: fn) = true := by
        rw [plainRel, goSplitOn_append_last '/' (c :: rest) fn hs]
        exact List.all_eq_true.mpr hall
      simpa [plainDir, hc] using hrel2

theorem goDirPart_append (s fn : Str) (hs : '/' ∉ fn) :
    goDirPart (s ++ '/' :: fn) = s ++ ['/'] := by
  have hrev : (s ++ '/' :: fn).reverse = fn.reverse ++ '/' :: s.reverse := by simp
  have hall : ∀ c ∈ fn.reverse, (fun c => (¬ c = '/' : Bool)) c = true := by
    intro c hcm
    have : c ≠ '/' := fun he => hs (he ▸ List.mem_reverse.mp hcm)
    simp [this]
  rw [goDirPart, hrev, dropWhile_append_of_all _ fn.reverse '/' s.reverse hall (by simp)]
  simp

theorem goFilepathDir_append (d fn : Str) (hd : plainDir d = true) (hs : '/' ∉ fn) :
    goFilepathDir (d ++ '/' :: fn) = d := by
  rw [goFilepathDir, goDirPart_append d fn hs, clean_dir_slash d hd]

theorem goFilepathJoin_plain (d x : Str) (hd : plainDir d = true)
    (hx : plainComp x = true) (hs : '/' ∉ x) :
    goFilepathJoin d x = d ++ '/' :: x := by
  have hdn : ¬ d = [] := by
    intro he
    subst he
    exact absurd hd (by decide)
  rw [goFilepathJoin, if_neg hdn]
  exact clean_of_plainDir _ (plainDir_append d x hd hx hs)

theorem plainComp_cons_ne_dot (c : Char) (rest : Str) (h : ¬ c = '.') :
    plainComp (c :: rest) = true := by
  simp [plainComp, h]

/-! ## Git-layout backend: the filename rewrite (`TufOnCiFetcher.mapTufOnCiURL`) -/

/-- The literal `"root"`. -/
def rootStr : Str := "root".data

/-- The literal `"snapshot"`. -/
def snapshotStr : Str := "snapshot".data

/-- The literal `"timestamp"`. -/
def timestampStr : Str := "timestamp".data

/-- The literal `"targets"`. -/
def targetsStr : Str := "targets".data

/-- The literal `"root.json"`. -/
def rootJsonStr : Str := "root.json".data

/-- The literal `"snapshot.json"`. -/
def snapshotJsonStr : Str := "snapshot.json".data

/-- The literal `"timestamp.json"`. -/
def timestampJsonStr : Str := "timestamp.json".data

/-- The literal `"targets.json"`. -/
def targetsJsonStr : Str := "targets.json".data

/-- The literal `".json"`. -/
def dotJsonStr : Str := ".json".data

/-- The literal `"1"`. -/
def oneStr : Str := "1".data

/-- The literal `"root_history"`. -/
def rootHistoryStr : Str := "root_history".data

/-- Embedding of the match against the regular expression
`^(\d+)\.(root|snapshot|timestamp|targets)\.json$`: returns the captured
version digits and role name, or `none` when the filename does not match. -/
def matchVersioned (fn : Str) : Option (Str × Str) :=
  let ver := fn.takeWhile (fun c => c.isDigit)
  let rest := fn.dropWhile (fun c => c.isDigit)
  if ver = [] then none
  else
    match rest with
    | '.' :: rest2 =>
      if rest2 = rootJsonStr then some (ver, rootStr)
      else if rest2 = snapshotJsonStr then some (ver, snapshotStr)
      else if rest2 = timestampJsonStr then some (ver, timestampStr)
      else if rest2 = targetsJsonStr then some (ver, targetsStr)
      else none
    | _ => none

/-- Embedding of `TufOnCiFetcher.mapTufOnCiURL` acting on the path
component of the URL (`url.Parse` / `URL.String` round-trip scheme and
host unchanged for the URLs this client constructs, and a parse failure
returns the input unchanged): take the base filename and directory,
rewrite `1.root.json` to itself, `N.root.json` into `root_history/`,
`N.snapshot.json` / `N.timestamp.json` / `N.targets.json` to the
unversioned current file, and leave non-matching filenames untouched. -/
def mapTufOnCiPath (p : Str) : Str :=
  let filename := goPathBase p
  let dirPath := goFilepathDir p
  match matchVersioned filename with
  | some (version, role) =>
    if role = rootStr then
      if version = oneStr then goFilepathJoin dirPath filename
      else goFilepathJoin (goFilepathJoin dirPath rootHistoryStr) filename
    else goFilepathJoin dirPath (role ++ dotJsonStr)
  | none => p

example : mapTufOnCiPath "/repo/metadata/3.root.json".data
    = "/repo/metadata/root_history/3.root.json".data := by decide
example : mapTufOnCiPath "/repo/metadata/1.root.json".data
    = "/repo/metadata/1.root.json".data := by decide
example : mapTufOnCiPath "/repo/metadata/7.snapshot.json".data
    = "/repo/metadata/snapshot.json".data := by decide
example : mapTufOnCiPath "/repo/metadata/delegated.json".data
    = "/repo/metadata/delegated.json".data := by decide

theorem matchVersioned_append (v R : Str) (hv : ¬ v = [])
    (hdig : ∀ c ∈ v, c.isDigit = true) :
    matchVersioned (v ++ '.' :: R)
      = if R = rootJsonStr then some (v, rootStr)
        else if R = snapshotJsonStr then some (v, snapshotStr)
        else if R = timestampJsonStr then some (v, timestampStr)
        else if R = targetsJsonStr then some (v, targetsStr)
        else none := by
  have ht := takeWhile_append_of_all (fun c => c.isDigit) v '.' R hdig (by decide)
  have hd := dropWhile_append_of_all (fun c => c.isDigit) v '.' R hdig (by decide)
  simp only [matchVersioned, ht, hd, hv, if_false]

theorem no_slash_of_digits (v : Str) (hdig : ∀ c ∈ v, c.isDigit = true) : '/' ∉ v := by
  intro hmv
  exact absurd (hdig '/' hmv) (by decide)

theorem no_slash_versioned (v R : Str) (hdig : ∀ c ∈ v, c.isDigit = true)
    (hslR : '/' ∉ R) : '/' ∉ v ++ '.' :: R := by
  intro hmem
  rcases List.mem_append.mp hmem with h1 | h2
  · exact no_slash_of_digits v hdig h1
  · rcases List.mem_cons.mp h2 with he | h3
    · exact absurd he (by decide)
    · exact hslR h3

theorem plainComp_versioned (v R : Str) (hv : ¬ v = [])
    (hdig : ∀ c ∈ v, c.isDigit = true) : plainComp (v ++ '.' :: R) = true := by
  obtain ⟨c, v', hv'⟩ := List.exists_cons_of_ne_nil hv
  subst hv'
  rw [List.cons_append]
  apply plainComp_cons_ne_dot
  intro he
  have hdc := hdig c (List.mem_cons_self c v')
  rw [he] at hdc
  exact absurd hdc (by decide)

theorem mapTufOnCi_versioned_root1 (d : Str) (hd : plainDir d = true) :
    mapTufOnCiPath (d ++ '/' :: (oneStr ++ '.' :: rootJsonStr))
      = d ++ '/' :: (oneStr ++ '.' :: rootJsonStr) := by
  have hslash : '/' ∉ oneStr ++ '.' :: rootJsonStr := by decide
  have hbase := goPathBase_append d (oneStr ++ '.' :: rootJsonStr) (by decide) hslash
  have hdir := goFilepathDir_append d (oneStr ++ '.' :: rootJsonStr) hd hslash
  have hm : matchVersioned (oneStr ++ '.' :: rootJsonStr) = some (oneStr, rootStr) := by decide
  simp only [mapTufOnCiPath, hbase, hdir, hm]
  rw [if_pos trivial, if_pos trivial]
  exact goFilepathJoin_plain d _ hd (by decide) hslash

theorem mapTufOnCi_versioned_rootN (d v : Str) (hd : plainDir d = true)
    (hv : ¬ v = []) (hdig : ∀ c ∈ v, c.isDigit = true) (hv1 : ¬ v = oneStr) :
    mapTufOnCiPath (d ++ '/' :: (v ++ '.' :: rootJsonStr))
      = d ++ '/' :: (rootHistoryStr ++ '/' :: (v ++ '.' :: rootJsonStr)) := by
  have hslash : '/' ∉ v ++ '.' :: rootJsonStr :=
    no_slash_versioned v rootJsonStr hdig (by decide)
  have hbase := goPathBase_append d (v ++ '.' :: rootJsonStr) (by simp) hslash
  have hdir := goFilepathDir_append d (v ++ '.' :: rootJsonStr) hd hslash
  have hm : matchVersioned (v ++ '.' :: rootJsonStr) = some (v, rootStr) := by
    have h0 := matchVersioned_append v rootJsonStr hv hdig
    rw [if_pos rfl] at h0
    exact h0
  simp only [mapTufOnCiPath, hbase, hdir, hm]
  rw [if_pos trivial, if_neg hv1]
  have hj1 : goFilepathJoin d rootHistoryStr = d ++ '/' :: rootHistoryStr :=
    goFilepathJoin_plain d _ hd (by decide) (by decide)
  rw [hj1]
  have hd2 : plainDir (d ++ '/' :: rootHistoryStr) = true :=
    plainDir_append d _ hd (by decide) (by decide)
  have hj2 := goFilepathJoin_plain (d ++ '/' :: rootHistoryStr)
    (v ++ '.' :: rootJsonStr) hd2 (plainComp_versioned v _ hv hdig) hslash
  rw [hj2]
  simp

theorem mapTufOnCi_versioned_nonroot (d v R role : Str) (hd : plainDir d = true)
    (hv : ¬ v = []) (hdig : ∀ c ∈ v, c.isDigit = true)
    (hm : matchVersioned (v ++ '.' :: R) = some (v, role))
    (hrole : ¬ role = rootStr)
    (hplain : plainComp (role ++ dotJsonStr) = true)
    (hsl : '/' ∉ role ++ dotJsonStr)
    (hslR : '/' ∉ R) :
    mapTufOnCiPath (d ++ '/' :: (v ++ '.' :: R)) = d ++ '/' :: (role ++ dotJsonStr) := by
  have hslash : '/' ∉ v ++ '.' :: R := no_slash_versioned v R hdig hslR
  have hbase := goPathBase_append d (v ++ '.' :: R) (by simp) hslash
  have hdir := goFilepathDir_append d (v ++ '.' :: R) hd hslash
  simp only [mapTufOnCiPath, hbase, hdir, hm]
  rw [if_neg hrole]
  exact goFilepathJoin_plain d _ hd hplain hsl

/-- C3.  The git-layout rewrite is a pure function of the filename
component — the directory part is unchanged — mapping `1.root.json` to
itself, `N.root.json` (canonical decimal `N > 1`) to
`root_history/N.root.json`, `N.snapshot.json` / `N.timestamp.json` /
`N.targets.json` (any `N`) to `snapshot.json` / `timestamp.json` /
`targets.json`, and leaving every filename that does not match the
versioned pattern untouched. -/
theorem mapTufOnCi_rewrite :
    (∀ d : Str, plainDir d = true →
      mapTufOnCiPath (d ++ "/1.root.json".data) = d ++ "/1.root.json".data)
  ∧ (∀ (d v : Str), plainDir d = true → ¬ v = [] → (∀ c ∈ v, c.isDigit = true) →
      v.head? ≠ some '0' → ¬ v = "1".data →
      mapTufOnCiPath (d ++ '/' :: (v ++ ".root.json".data))
        = d ++ '/' :: ("root_history".data ++ '/' :: (v ++ ".root.json".data)))
  ∧ (∀ (d v : Str), plainDir d = true → ¬ v = [] → (∀ c ∈ v, c.isDigit = true) →
      mapTufOnCiPath (d ++ '/' :: (v ++ ".snapshot.json".data)) = d ++ "/snapshot.json".data
      ∧ mapTufOnCiPath (d ++ '/' :: (v ++ ".timestamp.json".data)) = d ++ "/timestamp.json".data
      ∧ mapTufOnCiPath (d ++ '/' :: (v ++ ".targets.json".data)) = d ++ "/targets.json".data)
  ∧ (∀ p : Str, matchVersioned (goPathBase p) = none → mapTufOnCiPath p = p) := by
  refine ⟨?_, ?_, ?_, ?_⟩
  · intro d hd
    have e1 : "/1.root.json".data = '/' :: (oneStr ++ '.' :: rootJsonStr) := by decide
    rw [e1]
    exact mapTufOnCi_versioned_root1 d hd
  · intro d v hd hv hdig _ hv1
    have e1 : ".root.json".data = '.' :: rootJsonStr := by decide
    have e2 : "root_history".data = rootHistoryStr := by decide
    rw [e1, e2]
    exact mapTufOnCi_versioned_rootN d v hd hv hdig
      (fun he => hv1 (he.trans (by decide)))
  · intro d v hd hv hdig
    have esnap : ".snapshot.json".data = '.' :: snapshotJsonStr := by decide
    have ets : ".timestamp.json".data = '.' :: timestampJsonStr := by decide
    have etg : ".targets.json".data = '.' :: targetsJsonStr := by decide
    have e2 : "/snapshot.json".data = '/' :: (snapshotStr ++ dotJsonStr) := by decide
    have e3 : "/timestamp.json".data = '/' :: (timestampStr ++ dotJsonStr) := by decide
    have e4 : "/targets.json".data = '/' :: (targetsStr ++ dotJsonStr) := by decide
    refine ⟨?_, ?_, ?_⟩
    · rw [esnap, e2]
      have hm : matchVersioned (v ++ '.' :: snapshotJsonStr)
          = some (v, snapshotStr) := by
        have h0 := matchVersioned_append v snapshotJsonStr hv hdig
        rw [if_neg (by decide), if_pos rfl] at h0
        exact h0
      exact mapTufOnCi_versioned_nonroot d v snapshotJsonStr snapshotStr hd hv hdig
        hm (by decide) (by decide) (by decide) (by decide)
    · rw [ets, e3]
      have hm : matchVersioned (v ++ '.' :: timestampJsonStr)
          = some (v, timestampStr) := by
        have h0 := matchVersioned_append v timestampJsonStr hv hdig
        rw [if_neg (by decide), if_neg (by decide), if_pos rfl] at h0
        exact h0
      exact mapTufOnCi_versioned_nonroot d v timestampJsonStr timestampStr hd hv hdig
        hm (by decide) (by decide) (by decide) (by decide)
    · rw [etg, e4]
      have hm : matchVersioned (v ++ '.' :: targetsJsonStr)
          = some (v, targetsStr) := by
        have h0 := matchVersioned_append v targetsJsonStr hv hdig
        rw [if_neg (by decide), if_neg (by decide), if_neg (by decide), if_pos rfl] at h0
        exact h0
      exact mapTufOnCi_versioned_nonroot d v targetsJsonStr targetsStr hd hv hdig
        hm (by decide) (by decide) (by decide) (by decide)
  · intro p h
    simp only [mapTufOnCiPath, h]

/-- Witness for `mapTufOnCi_rewrite` at concrete inputs: the four
spec examples under the directory `/repo/metadata`. -/
theorem mapTufOnCi_rewrite_witness :
    mapTufOnCiPath ("/repo/metadata".data ++ '/' :: ("3".data ++ ".root.json".data))
      = "/repo/metadata".data ++ '/' :: ("root_history".data ++ '/' ::
          ("3".data ++ ".root.json".data))
  ∧ mapTufOnCiPath ("/repo/metadata".data ++ "/1.root.json".data)
      = "/repo/metadata".data ++ "/1.root.json".data
  ∧ mapTufOnCiPath ("/repo/metadata".data ++ '/' :: ("7".data ++ ".snapshot.json".data))
      = "/repo/metadata".data ++ "/snapshot.json".data
  ∧ mapTufOnCiPath "/repo/metadata/delegated.json".data = "/repo/metadata/delegated.json".data :=
  ⟨mapTufOnCi_rewrite.2.1 "/repo/metadata".data "3".data (by decide) (by decide)
      (by decide) (by decide) (by decide),
    mapTufOnCi_rewrite.1 "/repo/metadata".data (by decide),
    (mapTufOnCi_rewrite.2.2.1 "/repo/metadata".data "7".data (by decide) (by decide)
      (by decide)).1,
    mapTufOnCi_rewrite.2.2.2 "/repo/metadata/delegated.json".data (by decide)⟩

/-! ## Further path lemmas for slash-free names -/

theorem takeWhile_all (p : Char → Bool) (l : Str) (h : ∀ c ∈ l, p c = true) :
    l.takeWhile p = l := by
  induction l with
  | nil => rfl
  | cons c cs ih =>
    have hc := h c (List.mem_cons_self c cs)
    have ihc := ih (fun d hd => h d (List.mem_cons_of_mem c hd))
    simp [List.takeWhile, hc, ihc]

theorem dropWhile_all (p : Char → Bool) (l : Str) (h : ∀ c ∈ l, p c = true) :
    l.dropWhile p = [] := by
  induction l with
  | nil => rfl
  | cons c cs ih =>
    have hc := h c (List.mem_cons_self c cs)
    have ihc := ih (fun d hd => h d (List.mem_cons_of_mem c hd))
    simp [List.dropWhile, hc, ihc]

theorem goPathBase_no_slash (t : Str) (ht : ¬ t = []) (hs : '/' ∉ t) :
    goPathBase t = t := by
  have hmem : ∀ d ∈ t.reverse, ¬ d = '/' := by
    intro d hd he
    exact hs (he ▸ List.mem_reverse.mp hd)
  obtain ⟨c, cs, hct⟩ : ∃ c cs, t.reverse = c :: cs := by
    cases htr : t.reverse with
    | nil =>
      exfalso
      exact ht (by simpa using congrArg List.reverse htr)
    | cons c cs => exact ⟨c, cs, rfl⟩
  have hdrop : t.reverse.dropWhile (fun c => c = '/') = t.reverse := by
    rw [hct]
    exact dropWhile_cons_of_false _ c _ (by simp [hmem c (hct ▸ List.mem_cons_self c cs)])
  have htake : t.reverse.takeWhile (fun c => ¬ c = '/') = t.reverse :=
    takeWhile_all _ _ (by intro d hd; simpa using hmem d hd)
  simp only [goPathBase, ht, if_false, List.reverse_reverse]
  rw [hdrop, htake, List.reverse_reverse]
  simp [ht]

theorem goDirPart_no_slash (t : Str) (hs : '/' ∉ t) : goDirPart t = [] := by
  have : t.reverse.dropWhile (fun c => ¬ c = '/') = [] := by
    apply dropWhile_all
    intro d hd
    have : d ≠ '/' := fun he => hs (he ▸ List.mem_reverse.mp hd)
    simp [this]
  rw [goDirPart, this]
  rfl

theorem goFilepathDir_no_slash (t : Str) (hs : '/' ∉ t) : goFilepathDir t = ['.'] := by
  rw [goFilepathDir, goDirPart_no_slash t hs]
  rfl

theorem plainDir_of_plainComp (c : Str) (h : plainComp c = true) (hs : '/' ∉ c) :
    plainDir c = true := by
  have hsplit := goSplitOn_no_sep '/' c hs
  have hne : c ≠ [] := by
    intro he
    subst he
    simp [plainComp] at h
  obtain ⟨x, xs, hx⟩ := List.exists_cons_of_ne_nil hne
  have hxs : ¬ x = '/' := by
    intro he
    exact hs (he ▸ hx ▸ List.mem_cons_self x xs)
  subst hx
  simp [plainDir, hxs, plainRel, hsplit, h]

theorem goIntercalateSlash_append_last (rest fn : Str) (hs : '/' ∉ fn) :
    goIntercalateSlash (goSplitOn '/' rest ++ [fn]) = rest ++ '/' :: fn := by
  rw [← goSplitOn_append_last '/' rest fn hs, goIntercalateSlash_splitOn]

theorem plainDir_ne_nil (d : Str) (h : plainDir d = true) : ¬ d = [] := by
  intro he
  subst he
  exact absurd h (by decide)

theorem filter_dot_single :
    List.filter (fun c => ¬ (c = [] ∨ c = ['.'])) [['.']] = ([] : List Str) := by decide

theorem filter_plain_single (fn : Str) (h : plainComp fn = true) :
    List.filter (fun c => ¬ (c = [] ∨ c = ['.'])) [fn] = [fn] := by
  have hp : (decide ¬ (fn = [] ∨ fn = ['.'])) = true := by
    simp only [plainComp, decide_eq_true_eq] at h
    simp only [decide_eq_true_eq]
    tauto
  simp [List.filter_cons, hp]
  simp only [plainComp, decide_eq_true_eq] at h
  tauto

theorem filter_nil_cons (A : List Str) :
    List.filter (fun c => ¬ (c = [] ∨ c = ['.'])) ([] :: A)
      = List.filter (fun c => ¬ (c = [] ∨ c = ['.'])) A := by
  rw [List.filter_cons, if_neg (by decide)]

theorem clean_dot_append (d fn : Str) (hd : plainDir d = true)
    (hfn : plainComp fn = true) (hs : '/' ∉ fn) :
    goFilepathClean (d ++ '/' :: '.' :: '/' :: fn) = d ++ '/' :: fn := by
  cases d with
  | nil => exact absurd hd (by decide)
  | cons c rest =>
    have h1 : (c :: rest) ++ '/' :: '.' :: '/' :: fn
        = ((c :: rest) ++ '/' :: ['.']) ++ '/' :: fn := by simp
    have hsp : goSplitOn '/' ((c :: rest) ++ '/' :: '.' :: '/' :: fn)
        = (goSplitOn '/' (c :: rest) ++ [['.']]) ++ [fn] := by
      rw [h1, goSplitOn_append_last '/' _ fn hs,
        goSplitOn_append_last '/' (c :: rest) ['.'] (by decide)]
    by_cases hc : c = '/'
    · subst hc
      have hrel : plainRel rest = true := by simpa [plainDir] using hd
      have hkeep := filter_of_all_plain (goSplitOn '/' rest) (plainRel_all rest hrel)
      have hfil : (goSplitOn '/' (('/' :: rest) ++ '/' :: '.' :: '/' :: fn)).filter
          (fun c => ¬ (c = [] ∨ c = ['.'])) = goSplitOn '/' rest ++ [fn] := by
        rw [hsp, goSplitOn_cons_sep, List.filter_append, List.filter_append,
          filter_nil_cons, hkeep, filter_dot_single, filter_plain_single fn hfn]
        simp
      have hall : ∀ x ∈ goSplitOn '/' rest ++ [fn], plainComp x = true := by
        intro x hx
        rcases List.mem_append.mp hx with h1' | h2'
        · exact plainRel_all rest hrel x h1'
        · simp at h2'
          subst h2'
          exact hfn
      rw [goFilepathClean_plain_comps _ (by simp) _ hfil hall (by simp)]
      simp [goIntercalateSlash_append_last rest fn hs]
    · have hrel : plainRel (c :: rest) = true := by simpa [plainDir, hc] using hd
      have hkeep := filter_of_all_plain (goSplitOn '/' (c :: rest)) (plainRel_all _ hrel)
      have hfil : (goSplitOn '/' ((c :: rest) ++ '/' :: '.' :: '/' :: fn)).filter
          (fun c => ¬ (c = [] ∨ c = ['.'])) = goSplitOn '/' (c :: rest) ++ [fn] := by
        rw [hsp, List.filter_append, List.filter_append,
          hkeep, filter_dot_single, filter_plain_single fn hfn]
        simp
      have hall : ∀ x ∈ goSplitOn '/' (c :: rest) ++ [fn], plainComp x = true := by
        intro x hx
        rcases List.mem_append.mp hx with h1' | h2'
        · exact plainRel_all _ hrel x h1'
        · simp at h2'
          subst h2'
          exact hfn
      rw [goFilepathClean_plain_comps _ (by simp) _ hfil hall (by simp)]
      simp [hc, goIntercalateSlash_append_last (c :: rest) fn hs]

theorem goFilepathJoin3_dot (outTgt fname : Str) (hd : plainDir outTgt = true)
    (hf : plainComp fname = true) (hs : '/' ∉ fname) :
    goFilepathJoin3 outTgt ['.'] fname = outTgt ++ '/' :: fname := by
  rw [goFilepathJoin3, if_neg (plainDir_ne_nil outTgt hd)]
  have h1 : outTgt ++ '/' :: ['.'] ++ '/' :: fname = outTgt ++ '/' :: '.' :: '/' :: fname := by
    simp
  rw [h1]
  exact clean_dot_append outTgt fname hd hf hs

theorem goFilepathJoin3_plain (outTgt sub fname : Str) (hd : plainDir outTgt = true)
    (hsub : plainComp sub = true) (hsl : '/' ∉ sub)
    (hf : plainComp fname = true) (hs : '/' ∉ fname) :
    goFilepathJoin3 outTgt sub fname = (outTgt ++ '/' :: sub) ++ '/' :: fname := by
  rw [goFilepathJoin3, if_neg (plainDir_ne_nil outTgt hd)]
  exact clean_of_plainDir _ (plainDir_append _ fname (plainDir_append outTgt sub hd hsub hsl)
    hf hs)

/-! ## Layout converter (`LayoutFromTUFOnCI`, internal/repository) -/

/-- The literal `"metadata"`. -/
def metadataStr : Str := "metadata".data

/-- The literal `".root.json"`. -/
def dotRootJsonStr : Str := ".root.json".data

/-- One target entry of a targets role: its logical path and the hex
strings of its declared hash digests, in iteration order (Go iterates the
`Hashes` map in unspecified order; the model fixes a list order). -/
structure TargetEntry where
  name : Str
  hashes : List Str
deriving DecidableEq

/-- A parsed targets-role metadata file: `signed.version`, the raw file
bytes (what `copyFile` re-reads), the declared target entries and the
names of the delegated roles, in declaration order. -/
structure RoleMeta where
  version : Nat
  raw : Str
  targets : List TargetEntry
  delegations : List Str
deriving DecidableEq

/-- A parsed snapshot metadata file: `signed.version` and the raw bytes. -/
structure SnapMeta where
  version : Nat
  raw : Str
deriving DecidableEq

/-- The source layout the converter reads.  A `none` / absent entry models
a file that is missing or unparseable (both make the corresponding Go
read or `FromFile` call fail).  `rootHistory` is the `os.ReadDir` listing
of `metadata/root_history` together with each file's contents. -/
structure ConvInput where
  rootHistory : Option (List (Str × Str))
  timestamp : Option Str
  snapshot : Option SnapMeta
  roles : List (Str × RoleMeta)
  targetFiles : List (Str × Str)

/-- The errors `LayoutFromTUFOnCI` can abort with; each carries the path
that the corresponding Go error message names. -/
inductive ConvError where
  | readDirErr (path : Str)
  | copyReadErr (path : Str)
  | snapshotLoadErr (path : Str)
  | roleLoadErr (role : Str) (path : Str)
  | outOfFuel
deriving DecidableEq

/-- Go map lookup on an association list (first match wins). -/
def lookupS {α : Type} (k : Str) : List (Str × α) → Option α
  | [] => none
  | (k', v) :: rest => if k' = k then some v else lookupS k rest

/-- `%d` formatting of a version number. -/
def natRepr (n : Nat) : Str := (Nat.repr n).data

/-- The inner loop of `LayoutFromTUFOnCI` over one role's target entries
(lines 90-106): for each entry, read the backing content from
`targetsDir/<name>` (abort naming that path if missing), then emit one
copy per declared hash at `outputTargetsDir/<dir>/<hash>.<base>`. -/
def hashTargetWrites (targetsDir outputTargetsDir : Str) (targetFiles : List (Str × Str)) :
    List TargetEntry → List (Str × Str) × Option ConvError
  | [] => ([], none)
  | e :: es =>
    let origName := goPathBase e.name
    let origDir := goFilepathDir e.name
    let origFile := goFilepathJoin targetsDir e.name
    match lookupS e.name targetFiles with
    | none => ([], some (.copyReadErr origFile))
    | some content =>
      let ws := e.hashes.map (fun h =>
        (goFilepathJoin3 outputTargetsDir origDir (h ++ '.' :: origName), content))
      let r := hashTargetWrites targetsDir outputTargetsDir targetFiles es
      (ws ++ r.1, r.2)

/-- The FIFO delegation traversal of `LayoutFromTUFOnCI` (lines 66-113):
dequeue a role name, load and copy its metadata as
`{version}.{role}.json` (abort naming the role file if it cannot be
loaded), materialize its targets, then enqueue its delegations.  The
source loops without cycle protection; `fuel` bounds the modelled number
of iterations. -/
def processRoles (metadataDir targetsDir outputMetadataDir outputTargetsDir : Str)
    (inp : ConvInput) : Nat → List Str → List (Str × Str) × Option ConvError
  | _, [] => ([], none)
  | 0, _ :: _ => ([], some .outOfFuel)
  | fuel + 1, roleName :: queueRest =>
    let roleFile := goFilepathJoin metadataDir (roleName ++ dotJsonStr)
    match lookupS roleName inp.roles with
    | none => ([], some (.roleLoadErr roleName roleFile))
    | some r =>
      let w1 := (goFilepathJoin outputMetadataDir
        (natRepr r.version ++ '.' :: (roleName ++ dotJsonStr)), r.raw)
      match hashTargetWrites targetsDir outputTargetsDir inp.targetFiles r.targets with
      | (ws, some e) => (w1 :: ws, some e)
      | (ws, none) =>
        let r2 := processRoles metadataDir targetsDir outputMetadataDir outputTargetsDir inp
          fuel (queueRest ++ r.delegations)
        (w1 :: ws ++ r2.1, r2.2)

/-- Embedding of `LayoutFromTUFOnCI`: returns the ordered list of file
writes the converter performs (destination path, bytes) and the error, if
any, that aborted it — files written before the failure stay in the list
and nothing follows them. -/
def layoutFromTUFOnCI (tufOnCIPath outputDir : Str) (inp : ConvInput) (fuel : Nat) :
    List (Str × Str) × Option ConvError :=
  let outputMetadataDir := goFilepathJoin outputDir metadataStr
  let metadataDir := goFilepathJoin tufOnCIPath metadataStr
  let targetsDir := goFilepathJoin tufOnCIPath targetsStr
  let rootHistoryPath := goFilepathJoin metadataDir rootHistoryStr
  match inp.rootHistory with
  | none => ([], some (.readDirErr rootHistoryPath))
  | some entries =>
    let historyWrites := (entries.filter (fun e => goHasSuf e.1 dotRootJsonStr)).map
      (fun e => (goFilepathJoin outputMetadataDir e.1, e.2))
    let tsFile := goFilepathJoin metadataDir timestampJsonStr
    match inp.timestamp with
    | none => (historyWrites, some (.copyReadErr tsFile))
    | some ts =>
      let wTs := (goFilepathJoin outputMetadataDir timestampJsonStr, ts)
      let snapshotFile := goFilepathJoin metadataDir snapshotJsonStr
      match inp.snapshot with
      | none => (historyWrites ++ [wTs], some (.snapshotLoadErr snapshotFile))
      | some snap =>
        let wSnap := (goFilepathJoin outputMetadataDir
          (natRepr snap.version ++ '.' :: snapshotJsonStr), snap.raw)
        let outputTargetsDir := goFilepathJoin outputDir targetsStr
        let r := processRoles metadataDir targetsDir outputMetadataDir outputTargetsDir inp
          fuel [targetsStr]
        (historyWrites ++ wTs :: wSnap :: r.1, r.2)

/-- A source layout with one flat target declared under two hash
algorithms, plus one delegated role. -/
def twoHashInput : ConvInput where
  rootHistory := some [("1.root.json".data, "RH1".data)]
  timestamp := some "TS".data
  snapshot := some { version := 2, raw := "SNAP".data }
  roles := [("targets".data,
    { version := 3, raw := "TGT".data,
      targets := [{ name := "f.txt".data, hashes := ["aa".data, "bb".data] }],
      delegations := ["opkl".data] }),
    ("opkl".data,
    { version := 4, raw := "OPKL".data, targets := [], delegations := [] })]
  targetFiles := [("f.txt".data, "DATA".data)]

example : layoutFromTUFOnCI "/in".data "/out".data twoHashInput 8
    = ([("/out/metadata/1.root.json".data, "RH1".data),
        ("/out/metadata/timestamp.json".data, "TS".data),
        ("/out/metadata/2.snapshot.json".data, "SNAP".data),
        ("/out/metadata/3.targets.json".data, "TGT".data),
        ("/out/targets/aa.f.txt".data, "DATA".data),
        ("/out/targets/bb.f.txt".data, "DATA".data),
        ("/out/metadata/4.opkl.json".data, "OPKL".data)], none) := by decide

/-- A source layout whose only target lives under a subdirectory. -/
def nestedTargetInput : ConvInput where
  rootHistory := some [("1.root.json".data, "RH1".data)]
  timestamp := some "TS".data
  snapshot := some { version := 1, raw := "SNAP".data }
  roles := [("targets".data,
    { version := 1, raw := "TGT".data,
      targets := [{ name := "sub/f.txt".data, hashes := ["aa".data] }],
      delegations := [] })]
  targetFiles := [("sub/f.txt".data, "DATA".data)]

theorem plainComp_of_length (s : Str) (h : 3 ≤ s.length) : plainComp s = true := by
  match s with
  | [] => simp at h
  | [a] => simp at h
  | [a, b] => simp at h
  | a :: b :: c :: t => simp [plainComp]

theorem hashTargetWrites_flat (tgtDir outTgt : Str) (files : List (Str × Str))
    (nm content : Str) (hashes : List Str)
    (hd : plainDir outTgt = true) (hnm : ¬ nm = []) (hns : '/' ∉ nm)
    (hl : lookupS nm files = some content)
    (hh : ∀ h ∈ hashes, ¬ h = [] ∧ '/' ∉ h) :
    hashTargetWrites tgtDir outTgt files [⟨nm, hashes⟩]
      = (hashes.map (fun h => (outTgt ++ '/' :: (h ++ '.' :: nm), content)), none) := by
  have hbase : goPathBase nm = nm := goPathBase_no_slash nm hnm hns
  have hdir : goFilepathDir nm = ['.'] := goFilepathDir_no_slash nm hns
  have hmapeq : hashes.map (fun h => (goFilepathJoin3 outTgt ['.'] (h ++ '.' :: nm), content))
      = hashes.map (fun h => (outTgt ++ '/' :: (h ++ '.' :: nm), content)) := by
    induction hashes with
    | nil => rfl
    | cons a as ih =>
      obtain ⟨hne, hnsl⟩ := hh a (List.mem_cons_self a as)
      have h3 : 3 ≤ (a ++ '.' :: nm).length := by
        have h1 : 0 < a.length := List.length_pos.mpr hne
        have h2 : 0 < nm.length := List.length_pos.mpr hnm
        simp only [List.length_append, List.length_cons]
        omega
      have hplain := plainComp_of_length _ h3
      have hsl2 : '/' ∉ a ++ '.' :: nm := by
        intro hmem
        rcases List.mem_append.mp hmem with h1 | h2
        · exact hnsl h1
        · rcases List.mem_cons.mp h2 with he | h3'
          · exact absurd he (by decide)
          · exact hns h3'
      have ihh := ih (fun x hx => hh x (List.mem_cons_of_mem a hx))
      simp [goFilepathJoin3_dot outTgt _ hd hplain hsl2, ihh]
  simp only [hashTargetWrites, hl, hbase, hdir]
  rw [hmapeq]
  simp

theorem hashTargetWrites_nested (tgtDir outTgt : Str) (files : List (Str × Str))
    (sub nm content : Str) (hashes : List Str)
    (hd : plainDir outTgt = true)
    (hsub : plainComp sub = true) (hsubs : '/' ∉ sub)
    (hnm : ¬ nm = []) (hns : '/' ∉ nm)
    (hl : lookupS (sub ++ '/' :: nm) files = some content)
    (hh : ∀ h ∈ hashes, ¬ h = [] ∧ '/' ∉ h) :
    hashTargetWrites tgtDir outTgt files [⟨sub ++ '/' :: nm, hashes⟩]
      = (hashes.map (fun h => ((outTgt ++ '/' :: sub) ++ '/' :: (h ++ '.' :: nm), content)),
        none) := by
  have hbase : goPathBase (sub ++ '/' :: nm) = nm :=
    goPathBase_append sub nm hnm hns
  have hdir : goFilepathDir (sub ++ '/' :: nm) = sub :=
    goFilepathDir_append sub nm (plainDir_of_plainComp sub hsub hsubs) hns
  have hmapeq : hashes.map (fun h => (goFilepathJoin3 outTgt sub (h ++ '.' :: nm), content))
      = hashes.map (fun h => ((outTgt ++ '/' :: sub) ++ '/' :: (h ++ '.' :: nm), content)) := by
    induction hashes with
    | nil => rfl
    | cons a as ih =>
      obtain ⟨hne, hnsl⟩ := hh a (List.mem_cons_self a as)
      have h3 : 3 ≤ (a ++ '.' :: nm).length := by
        have h1 : 0 < a.length := List.length_pos.mpr hne
        have h2 : 0 < nm.length := List.length_pos.mpr hnm
        simp only [List.length_append, List.length_cons]
        omega
      have hplain := plainComp_of_length _ h3
      have hsl2 : '/' ∉ a ++ '.' :: nm := by
        intro hmem
        rcases List.mem_append.mp hmem with h1 | h2
        · exact hnsl h1
        · rcases List.mem_cons.mp h2 with he | h3'
          · exact absurd he (by decide)
          · exact hns h3'
      have ihh := ih (fun x hx => hh x (List.mem_cons_of_mem a hx))
      simp [goFilepathJoin3_plain outTgt sub _ hd hsub hsubs hplain hsl2, ihh]
  simp only [hashTargetWrites, hl, hbase, hdir]
  rw [hmapeq]
  simp

/-- C4 counterexample.  On a source layout whose only target is declared
at the logical path `sub/f.txt`, the converter writes the copy at
`targets/sub/<hash>.f.txt` — the target's directory is preserved — and
writes nothing at the claim's path `targets/<hash>.f.txt`. -/
theorem layout_target_path_counterexample :
    ((layoutFromTUFOnCI "/in".data "/out".data nestedTargetInput 8).1.map Prod.fst).contains
        "/out/targets/sub/aa.f.txt".data = true
  ∧ ((layoutFromTUFOnCI "/in".data "/out".data nestedTargetInput 8).1.map Prod.fst).contains
        "/out/targets/aa.f.txt".data = false
  ∧ (layoutFromTUFOnCI "/in".data "/out".data nestedTargetInput 8).2 = none := by decide

/-- C4 (amended).  For every target entry a role declares, the converter
writes one physical output file per declared hash digest, each
byte-identical to the source content, at
`targets/{dir of the target's logical path}/{hash-hex}.{basename}` (for a
flat target the directory component disappears); a target with two
distinct hash digests yields exactly two byte-identical output files at
distinct paths. -/
theorem layout_target_copies :
    (∀ (tgtDir outTgt : Str) (files : List (Str × Str)) (nm content : Str)
        (hashes : List Str),
      plainDir outTgt = true → ¬ nm = [] → '/' ∉ nm →
      lookupS nm files = some content →
      (∀ h ∈ hashes, ¬ h = [] ∧ '/' ∉ h) →
      hashTargetWrites tgtDir outTgt files [⟨nm, hashes⟩]
        = (hashes.map (fun h => (outTgt ++ '/' :: (h ++ '.' :: nm), content)), none))
  ∧ (∀ (tgtDir outTgt : Str) (files : List (Str × Str)) (sub nm content : Str)
        (hashes : List Str),
      plainDir outTgt = true → plainComp sub = true → '/' ∉ sub → ¬ nm = [] → '/' ∉ nm →
      lookupS (sub ++ '/' :: nm) files = some content →
      (∀ h ∈ hashes, ¬ h = [] ∧ '/' ∉ h) →
      hashTargetWrites tgtDir outTgt files [⟨sub ++ '/' :: nm, hashes⟩]
        = (hashes.map (fun h => ((outTgt ++ '/' :: sub) ++ '/' :: (h ++ '.' :: nm), content)),
          none))
  ∧ (∀ (tgtDir outTgt : Str) (files : List (Str × Str)) (nm content : Str) (h1 h2 : Str),
      plainDir outTgt = true → ¬ nm = [] → '/' ∉ nm →
      lookupS nm files = some content →
      ¬ h1 = [] → '/' ∉ h1 → ¬ h2 = [] → '/' ∉ h2 → ¬ h1 = h2 →
      hashTargetWrites tgtDir outTgt files [⟨nm, [h1, h2]⟩]
        = ([(outTgt ++ '/' :: (h1 ++ '.' :: nm), content),
            (outTgt ++ '/' :: (h2 ++ '.' :: nm), content)], none)
        ∧ ¬ (outTgt ++ '/' :: (h1 ++ '.' :: nm)) = (outTgt ++ '/' :: (h2 ++ '.' :: nm))) := by
  refine ⟨?_, ?_, ?_⟩
  · intro tgtDir outTgt files nm content hashes hd hnm hns hl hh
    exact hashTargetWrites_flat tgtDir outTgt files nm content hashes hd hnm hns hl hh
  · intro tgtDir outTgt files sub nm content hashes hd hsub hsubs hnm hns hl hh
    exact hashTargetWrites_nested tgtDir outTgt files sub nm content hashes hd hsub hsubs
      hnm hns hl hh
  · intro tgtDir outTgt files nm content h1 h2 hd hnm hns hl h1n h1s h2n h2s hne
    constructor
    · have := hashTargetWrites_flat tgtDir outTgt files nm content [h1, h2] hd hnm hns hl
        (by
          intro h hm
          rcases List.mem_cons.mp hm with he | hm2
          · exact he ▸ ⟨h1n, h1s⟩
          · rcases List.mem_cons.mp hm2 with he2 | hm3
            · exact he2 ▸ ⟨h2n, h2s⟩
            · exact absurd hm3 (List.not_mem_nil h))
      simpa using this
    · intro heq
      have heq2 : '/' :: (h1 ++ '.' :: nm) = '/' :: (h2 ++ '.' :: nm) :=
        List.append_cancel_left heq
      have heq3 : h1 ++ '.' :: nm = h2 ++ '.' :: nm := List.cons.inj heq2 |>.2
      exact hne (List.append_cancel_right heq3)

/-- Witness for `layout_target_copies` at a concrete input: the two-hash
flat target of `twoHashInput`. -/
theorem layout_target_copies_witness :
    hashTargetWrites "/in/targets".data "/out/targets".data [("f.txt".data, "DATA".data)]
        [⟨"f.txt".data, ["aa".data, "bb".data]⟩]
      = ([("/out/targets".data ++ '/' :: ("aa".data ++ '.' :: "f.txt".data), "DATA".data),
          ("/out/targets".data ++ '/' :: ("bb".data ++ '.' :: "f.txt".data), "DATA".data)],
        none)
    ∧ ¬ ("/out/targets".data ++ '/' :: ("aa".data ++ '.' :: "f.txt".data))
        = ("/out/targets".data ++ '/' :: ("bb".data ++ '.' :: "f.txt".data)) :=
  layout_target_copies.2.2 "/in/targets".data "/out/targets".data
    [("f.txt".data, "DATA".data)] "f.txt".data "DATA".data "aa".data "bb".data
    (by decide) (by decide) (by decide) (by decide) (by decide) (by decide) (by decide)
    (by decide) (by decide)

/-- A source layout missing its `snapshot.json`. -/
def missingSnapshotInput : ConvInput where
  rootHistory := some [("1.root.json".data, "RH1".data), ("2.root.json".data, "RH2".data)]
  timestamp := some "TS".data
  snapshot := none
  roles := []
  targetFiles := []

/-- A source layout whose targets role delegates to a role whose metadata
file is missing. -/
def missingRoleInput : ConvInput where
  rootHistory := some [("1.root.json".data, "RH1".data)]
  timestamp := some "TS".data
  snapshot := some { version := 1, raw := "SNAP".data }
  roles := [("targets".data,
    { version := 1, raw := "TGT".data, targets := [], delegations := ["opkl".data] })]
  targetFiles := []

/-- A source layout declaring a target whose backing content is missing. -/
def missingTargetInput : ConvInput where
  rootHistory := some [("1.root.json".data, "RH1".data)]
  timestamp := some "TS".data
  snapshot := some { version := 1, raw := "SNAP".data }
  roles := [("targets".data,
    { version := 1, raw := "TGT".data,
      targets := [{ name := "f.txt".data, hashes := ["aa".data] }],
      delegations := [] })]
  targetFiles := []

/-- C8.  A missing expected input aborts the conversion with an error
carrying the missing path, the files already written remain in the write
list and nothing is written after the failure: a missing root-history
directory aborts before any write; a missing `snapshot.json` aborts right
after the root-history and timestamp copies, naming
`{metadataDir}/snapshot.json`; a missing delegated-role file and a
missing target's backing content abort naming the role file and target
path respectively. -/
theorem layout_missing_input_aborts :
    (∀ (inPath outPath : Str) (inp : ConvInput) (fuel : Nat),
      inp.rootHistory = none →
      layoutFromTUFOnCI inPath outPath inp fuel
        = ([], some (.readDirErr
            (goFilepathJoin (goFilepathJoin inPath metadataStr) rootHistoryStr))))
  ∧ (∀ (inPath outPath : Str) (inp : ConvInput) (fuel : Nat)
        (entries : List (Str × Str)) (ts : Str),
      inp.rootHistory = some entries → inp.timestamp = some ts → inp.snapshot = none →
      layoutFromTUFOnCI inPath outPath inp fuel
        = ((entries.filter (fun e => goHasSuf e.1 dotRootJsonStr)).map
              (fun e => (goFilepathJoin (goFilepathJoin outPath metadataStr) e.1, e.2))
            ++ [(goFilepathJoin (goFilepathJoin outPath metadataStr) timestampJsonStr, ts)],
          some (.snapshotLoadErr
            (goFilepathJoin (goFilepathJoin inPath metadataStr) snapshotJsonStr))))
  ∧ layoutFromTUFOnCI "/in".data "/out".data missingSnapshotInput 8
      = ([("/out/metadata/1.root.json".data, "RH1".data),
          ("/out/metadata/2.root.json".data, "RH2".data),
          ("/out/metadata/timestamp.json".data, "TS".data)],
        some (.snapshotLoadErr "/in/metadata/snapshot.json".data))
  ∧ layoutFromTUFOnCI "/in".data "/out".data missingRoleInput 8
      = ([("/out/metadata/1.root.json".data, "RH1".data),
          ("/out/metadata/timestamp.json".data, "TS".data),
          ("/out/metadata/1.snapshot.json".data, "SNAP".data),
          ("/out/metadata/1.targets.json".data, "TGT".data)],
        some (.roleLoadErr "opkl".data "/in/metadata/opkl.json".data))
  ∧ layoutFromTUFOnCI "/in".data "/out".data missingTargetInput 8
      = ([("/out/metadata/1.root.json".data, "RH1".data),
          ("/out/metadata/timestamp.json".data, "TS".data),
          ("/out/metadata/1.snapshot.json".data, "SNAP".data),
          ("/out/metadata/1.targets.json".data, "TGT".data)],
        some (.copyReadErr "/in/targets/f.txt".data)) := by
  refine ⟨?_, ?_, by decide, by decide, by decide⟩
  · intro inPath outPath inp fuel h
    simp only [layoutFromTUFOnCI, h]
  · intro inPath outPath inp fuel entries ts h1 h2 h3
    simp only [layoutFromTUFOnCI, h1, h2, h3]

/-- Witness for `layout_missing_input_aborts` at a concrete input: a
source layout with no root-history directory aborts before any write. -/
theorem layout_missing_input_aborts_witness :
    layoutFromTUFOnCI "/in".data "/out".data ⟨none, none, none, [], []⟩ 1
      = ([], some (.readDirErr
          (goFilepathJoin (goFilepathJoin "/in".data metadataStr) rootHistoryStr))) :=
  layout_missing_input_aborts.1 "/in".data "/out".data ⟨none, none, none, [], []⟩ 1 rfl

/-! ## Registry backend: manifests, layers, cache and network (dynamic part) -/

/-- A parsed `v1.Hash` (algorithm and hex digest); `hashString` is its
`String()` rendering `algorithm:hex`. -/
structure GoHash where
  algorithm : Str
  hex : Str
deriving DecidableEq

/-- `v1.Hash.String()`. -/
def hashString (h : GoHash) : Str := h.algorithm ++ ':' :: h.hex

/-- A descriptor in a manifest's `layers` or `manifests` list: its
annotations and digest (struct `Layer` of the source). -/
structure LayerDesc where
  annotations : List (Str × Str)
  digest : Str
deriving DecidableEq

/-- The fields of a manifest the source unmarshals (struct `Layers`):
layer descriptors, sub-manifest descriptors and the media type. -/
structure LayersStruct where
  layers : List LayerDesc
  manifests : List LayerDesc
  mediaType : Str
deriving DecidableEq

/-- A pulled `v1.Layer`: its declared `Size()` and its decompressed
content; `none` models the respective method returning an error. -/
structure GoLayer where
  size : Option Int
  content : Option Str
deriving DecidableEq

/-- The external world the registry backend talks to: `crane.Manifest`,
`crane.PullLayer`, `json.Unmarshal` into `Layers`, and `v1.NewHash`
(`none` models the respective call failing). -/
structure RegEnv where
  net : Str → Option Str
  netLayer : Str → Option GoLayer
  decode : Str → Option LayersStruct
  parseHash : Str → Option GoHash

/-- One `RegistryFetcher` instance's mutable state: the `ImageCache` map
and instrumentation counting network manifest and layer pulls. -/
structure RegState where
  cache : List (Str × Str)
  manifestPulls : Nat
  layerPulls : Nat
deriving DecidableEq

/-- The error values the fetchers return, by Go error identity:
`metadata.ErrDownloadHTTP` (status and URL; the registry backend's
not-found carries status 404 and an empty URL),
`metadata.ErrDownloadLengthMismatch`, and the remaining distinct
`fmt.Errorf` / library errors. -/
inductive FetchErr where
  | httpErr (status : Nat) (url : Str)
  | lengthMismatch (length expected : Int)
  | transportErr (ref : Str)
  | configErr (urlPath : Str)
  | jsonErr
  | invalidMediaType (mt : Str)
  | fileNotFound (name : Str)
  | hashParseErr (digest : Str)
  | invalidRef (imgRef : Str)
  | layerSizeErr
  | layerReadErr
  | readFail (url : Str)
  | sizeExceeded (size limit : Int)
  | respSizeExceeded (limit : Int)
  | fuelErr
deriving DecidableEq

/-- Embedding of `getManifest`: consult the cache first; on a miss pull
over the network, cache the result, and count the pull. -/
def getManifest (env : RegEnv) (ref : Str) (s : RegState) : Except FetchErr Str × RegState :=
  match lookupS ref s.cache with
  | some mf => (.ok mf, s)
  | none =>
    match env.net ref with
    | none => (.error (.transportErr ref), { s with manifestPulls := s.manifestPulls + 1 })
    | some mf => (.ok mf, ⟨(ref, mf) :: s.cache, s.manifestPulls + 1, s.layerPulls⟩)

/-- Embedding of `getDataFromLayer`: reject when the declared size
exceeds `maxLength`; read at most `maxLength+1` bytes of the decompressed
content and reject when the byte count exceeds `maxLength`. -/
def getDataFromLayer (fileLayer : GoLayer) (maxLength : Int) : Except FetchErr Str :=
  match fileLayer.size with
  | none => .error .layerSizeErr
  | some length =>
    if length > maxLength then .error (.lengthMismatch length maxLength)
    else
      match fileLayer.content with
      | none => .error .layerReadErr
      | some content =>
        let data := content.take (maxLength + 1).toNat
        if (data.length : Int) > maxLength then .error (.lengthMismatch data.length maxLength)
        else .ok data

/-- Embedding of `pullFileLayer`: consult the cache first; on a miss pull
the layer, extract its data, cache it on success, and count the pull. -/
def pullFileLayer (env : RegEnv) (ref : Str) (maxLength : Int) (s : RegState) :
    Except FetchErr Str × RegState :=
  match lookupS ref s.cache with
  | some data => (.ok data, s)
  | none =>
    match env.netLayer ref with
    | none => (.error (.transportErr ref), { s with layerPulls := s.layerPulls + 1 })
    | some layer =>
      match getDataFromLayer layer maxLength with
      | .error e => (.error e, { s with layerPulls := s.layerPulls + 1 })
      | .ok data => (.ok data, ⟨(ref, data) :: s.cache, s.manifestPulls, s.layerPulls + 1⟩)

/-- Go map access `layer.Annotations[TUFFilenameAnnotation]`: the zero
value `""` when the key is absent. -/
def annGet (anns : List (Str × Str)) (k : Str) : Str := (lookupS k anns).getD []

/-- The media-type dispatch of `findFileInManifest`: index manifests
carry candidate descriptors in `manifests`, image manifests in `layers`,
anything else is an error. -/
def manifestLayers (l : LayersStruct) : Option (List LayerDesc × Bool) :=
  if l.mediaType = ociImageIndexMT then some (l.manifests, true)
  else if l.mediaType = ociManifestMT then some (l.layers, false)
  else none

/-- The linear scan of `findFileInManifest`: the digest of the first
descriptor whose filename annotation equals `name`, or `""`. -/
def findDigest (layers : List LayerDesc) (name : Str) : Str :=
  match layers.find? (fun ld => annGet ld.annotations tufFilenameKey = name) with
  | some ld => ld.digest
  | none => []

/-- Embedding of `findFileInManifest`: decode the manifest, dispatch on
its media type, scan for the filename annotation, parse the digest, and
for an index manifest pull the sub-manifest (from `targetsRepo@digest`)
and recurse on the final path segment of the name.  The source recursion
is bounded here by explicit fuel. -/
def findFileInManifest (env : RegEnv) (d : RegistryFetcher) :
    Nat → Str → Str → RegState → Except FetchErr GoHash × RegState
  | 0, _, _, s => (.error .fuelErr, s)
  | fuel + 1, mf, name, s =>
    match env.decode mf with
    | none => (.error .jsonErr, s)
    | some l =>
      match manifestLayers l with
      | none => (.error (.invalidMediaType l.mediaType), s)
      | some (layers, index) =>
        let digest := findDigest layers name
        if digest = [] then (.error (.fileNotFound name), s)
        else
          match env.parseHash digest with
          | none => (.error (.hashParseErr digest), s)
          | some h =>
            if index then
              match getManifest env (d.targetsRepo ++ '@' :: hashString h) s with
              | (.error e, s') => (.error e, s')
              | (.ok mf', s') =>
                findFileInManifest env d fuel mf' (((goSplitOn '/' name).getLast?).getD []) s'
            else (.ok h, s)

/-- Embedding of `RegistryFetcher.DownloadFile`: parse the address, fetch
the manifest, search it — mapping ANY search failure to
`ErrDownloadHTTP{404}` — and pull the matched layer by
`repository@digest` (re-inserting a custom host port). -/
def RegistryFetcher.DownloadFile (env : RegEnv) (d : RegistryFetcher) (urlPath : Str)
    (maxLength : Int) (fuel : Nat) (s : RegState) : Except FetchErr Str × RegState :=
  match parseImgRef d urlPath with
  | none => (.error (.configErr urlPath), s)
  | some (imgRef, fileName) =>
    match getManifest env imgRef s with
    | (.error e, s') => (.error e, s')
    | (.ok mf, s') =>
      match findFileInManifest env d fuel mf fileName s' with
      | (.error _, s'') => (.error (.httpErr 404 []), s'')
      | (.ok h, s'') =>
        match goSplitOn ':' imgRef with
        | [p0, _] => pullFileLayer env (p0 ++ '@' :: hashString h) maxLength s''
        | [p0, p1, _] => pullFileLayer env (p0 ++ ':' :: (p1 ++ '@' :: hashString h)) maxLength s''
        | _ => (.error (.invalidRef imgRef), s'')

/-! ## Cache lemmas and the replay property (C5) -/

/-- State extension: every cached binding of `s` is still cached, with
the same value, in `s'`. -/
def StateLE (s s' : RegState) : Prop :=
  ∀ k v, lookupS k s.cache = some v → lookupS k s'.cache = some v

theorem StateLE_refl (s : RegState) : StateLE s s := fun _ _ h => h

theorem StateLE_trans {a b c : RegState} (h1 : StateLE a b) (h2 : StateLE b c) :
    StateLE a c := fun k v h => h2 k v (h1 k v h)

theorem lookupS_cons_preserve {α : Type} (k k' : Str) (v v' : α) (c : List (Str × α))
    (h : lookupS k c = some v) (hk' : lookupS k' c = none) :
    lookupS k ((k', v') :: c) = some v := by
  by_cases he : k' = k
  · subst he
    rw [h] at hk'
    cases hk'
  · simp [lookupS, he, h]

theorem getManifest_mono (env : RegEnv) (ref : Str) (s : RegState) (r : Except FetchErr Str)
    (s' : RegState) (h : getManifest env ref s = (r, s')) : StateLE s s' := by
  unfold getManifest at h
  cases hl : lookupS ref s.cache with
  | some mf =>
    rw [hl] at h
    injection h with h1 h2
    subst h2
    exact StateLE_refl s
  | none =>
    rw [hl] at h
    cases hn : env.net ref with
    | none =>
      rw [hn] at h
      injection h with h1 h2
      subst h2
      exact fun k v hkv => hkv
    | some mf =>
      rw [hn] at h
      injection h with h1 h2
      subst h2
      exact fun k v hkv => lookupS_cons_preserve k ref v mf s.cache hkv hl

theorem getManifest_ok_cached (env : RegEnv) (ref : Str) (s : RegState) (mf : Str)
    (s' : RegState) (h : getManifest env ref s = (.ok mf, s')) :
    lookupS ref s'.cache = some mf := by
  unfold getManifest at h
  cases hl : lookupS ref s.cache with
  | some m =>
    rw [hl] at h
    injection h with h1 h2
    injection h1 with h1'
    subst h1'
    subst h2
    exact hl
  | none =>
    rw [hl] at h
    cases hn : env.net ref with
    | none =>
      rw [hn] at h
      injection h with h1 h2
      cases h1
    | some m =>
      rw [hn] at h
      injection h with h1 h2
      injection h1 with h1'
      subst h1'
      subst h2
      simp [lookupS]

theorem getManifest_replay (env : RegEnv) (ref : Str) (s : RegState) (mf : Str)
    (h : lookupS ref s.cache = some mf) : getManifest env ref s = (.ok mf, s) := by
  unfold getManifest
  rw [h]

theorem pullFileLayer_replay (env : RegEnv) (ref : Str) (ml : Int) (s : RegState)
    (data : Str) (h : lookupS ref s.cache = some data) :
    pullFileLayer env ref ml s = (.ok data, s) := by
  unfold pullFileLayer
  rw [h]

theorem pullFileLayer_miss_none (env : RegEnv) (ref : Str) (ml : Int) (s : RegState)
    (hl : lookupS ref s.cache = none) (hn : env.netLayer ref = none) :
    pullFileLayer env ref ml s
      = (.error (.transportErr ref), ⟨s.cache, s.manifestPulls, s.layerPulls + 1⟩) := by
  unfold pullFileLayer
  rw [hl, hn]

theorem pullFileLayer_miss_err (env : RegEnv) (ref : Str) (ml : Int) (s : RegState)
    (layer : GoLayer) (e : FetchErr)
    (hl : lookupS ref s.cache = none) (hn : env.netLayer ref = some layer)
    (hg : getDataFromLayer layer ml = .error e) :
    pullFileLayer env ref ml s
      = (.error e, ⟨s.cache, s.manifestPulls, s.layerPulls + 1⟩) := by
  unfold pullFileLayer
  rw [hl, hn]
  simp only [hg]

theorem pullFileLayer_miss_ok (env : RegEnv) (ref : Str) (ml : Int) (s : RegState)
    (layer : GoLayer) (data : Str)
    (hl : lookupS ref s.cache = none) (hn : env.netLayer ref = some layer)
    (hg : getDataFromLayer layer ml = .ok data) :
    pullFileLayer env ref ml s
      = (.ok data, ⟨(ref, data) :: s.cache, s.manifestPulls, s.layerPulls + 1⟩) := by
  unfold pullFileLayer
  rw [hl, hn]
  simp only [hg]

theorem pullFileLayer_mono (env : RegEnv) (ref : Str) (ml : Int) (s : RegState)
    (r : Except FetchErr Str) (s' : RegState) (h : pullFileLayer env ref ml s = (r, s')) :
    StateLE s s' := by
  cases hl : lookupS ref s.cache with
  | some data =>
    rw [pullFileLayer_replay env ref ml s data hl] at h
    injection h with h1 h2
    subst h2
    exact StateLE_refl s
  | none =>
    cases hn : env.netLayer ref with
    | none =>
      rw [pullFileLayer_miss_none env ref ml s hl hn] at h
      injection h with h1 h2
      subst h2
      exact fun k v hkv => hkv
    | some layer =>
      cases hg : getDataFromLayer layer ml with
      | error e =>
        rw [pullFileLayer_miss_err env ref ml s layer e hl hn hg] at h
        injection h with h1 h2
        subst h2
        exact fun k v hkv => hkv
      | ok data =>
        rw [pullFileLayer_miss_ok env ref ml s layer data hl hn hg] at h
        injection h with h1 h2
        subst h2
        exact fun k v hkv => lookupS_cons_preserve k ref v data s.cache hkv hl

theorem pullFileLayer_ok_cached (env : RegEnv) (ref : Str) (ml : Int) (s : RegState)
    (data : Str) (s' : RegState) (h : pullFileLayer env ref ml s = (.ok data, s')) :
    lookupS ref s'.cache = some data := by
  cases hl : lookupS ref s.cache with
  | some d0 =>
    rw [pullFileLayer_replay env ref ml s d0 hl] at h
    injection h with h1 h2
    injection h1 with h1'
    subst h1'
    subst h2
    exact hl
  | none =>
    cases hn : env.netLayer ref with
    | none =>
      rw [pullFileLayer_miss_none env ref ml s hl hn] at h
      injection h with h1 h2
      cases h1
    | some layer =>
      cases hg : getDataFromLayer layer ml with
      | error e =>
        rw [pullFileLayer_miss_err env ref ml s layer e hl hn hg] at h
        injection h with h1 h2
        cases h1
      | ok d0 =>
        rw [pullFileLayer_miss_ok env ref ml s layer d0 hl hn hg] at h
        injection h with h1 h2
        injection h1 with h1'
        subst h1'
        subst h2
        simp [lookupS]

theorem ff_decode_none (env : RegEnv) (d : RegistryFetcher) (fuel : Nat) (mf name : Str)
    (s : RegState) (hdec : env.decode mf = none) :
    findFileInManifest env d (fuel + 1) mf name s = (.error .jsonErr, s) := by
  unfold findFileInManifest
  rw [hdec]

theorem ff_ml_none (env : RegEnv) (d : RegistryFetcher) (fuel : Nat) (mf name : Str)
    (s : RegState) (l : LayersStruct)
    (hdec : env.decode mf = some l) (hml : manifestLayers l = none) :
    findFileInManifest env d (fuel + 1) mf name s
      = (.error (.invalidMediaType l.mediaType), s) := by
  unfold findFileInManifest
  rw [hdec]
  simp only [hml]

theorem ff_digest_nil (env : RegEnv) (d : RegistryFetcher) (fuel : Nat) (mf name : Str)
    (s : RegState) (l : LayersStruct) (layers : List LayerDesc) (index : Bool)
    (hdec : env.decode mf = some l) (hml : manifestLayers l = some (layers, index))
    (hdg : findDigest layers name = []) :
    findFileInManifest env d (fuel + 1) mf name s = (.error (.fileNotFound name), s) := by
  unfold findFileInManifest
  rw [hdec]
  simp only [hml, hdg]
  simp

theorem ff_hash_none (env : RegEnv) (d : RegistryFetcher) (fuel : Nat) (mf name : Str)
    (s : RegState) (l : LayersStruct) (layers : List LayerDesc) (index : Bool)
    (hdec : env.decode mf = some l) (hml : manifestLayers l = some (layers, index))
    (hdg : ¬ findDigest layers name = [])
    (hph : env.parseHash (findDigest layers name) = none) :
    findFileInManifest env d (fuel + 1) mf name s
      = (.error (.hashParseErr (findDigest layers name)), s) := by
  unfold findFileInManifest
  rw [hdec]
  simp only [hml, hdg, hph]
  simp [hdg]

theorem ff_image_ok (env : RegEnv) (d : RegistryFetcher) (fuel : Nat) (mf name : Str)
    (s : RegState) (l : LayersStruct) (layers : List LayerDesc) (h : GoHash)
    (hdec : env.decode mf = some l) (hml : manifestLayers l = some (layers, false))
    (hdg : ¬ findDigest layers name = [])
    (hph : env.parseHash (findDigest layers name) = some h) :
    findFileInManifest env d (fuel + 1) mf name s = (.ok h, s) := by
  unfold findFileInManifest
  rw [hdec]
  simp only [hml, hph]
  simp [hdg]

theorem ff_index_gm (env : RegEnv) (d : RegistryFetcher) (fuel : Nat) (mf name : Str)
    (s : RegState) (l : LayersStruct) (layers : List LayerDesc) (h : GoHash)
    (hdec : env.decode mf = some l) (hml : manifestLayers l = some (layers, true))
    (hdg : ¬ findDigest layers name = [])
    (hph : env.parseHash (findDigest layers name) = some h) :
    findFileInManifest env d (fuel + 1) mf name s
      = (match getManifest env (d.targetsRepo ++ '@' :: hashString h) s with
        | (.error e, s') => (.error e, s')
        | (.ok mf', s') =>
          findFileInManifest env d fuel mf' (((goSplitOn '/' name).getLast?).getD []) s') := by
  conv_lhs => rw [findFileInManifest]
  rw [hdec]
  simp only [hml, hph]
  simp [hdg]

theorem findFile_mono_replay (env : RegEnv) (d : RegistryFetcher) :
    ∀ (fuel : Nat) (mf name : Str) (s : RegState) (h : GoHash) (s' : RegState),
      findFileInManifest env d fuel mf name s = (.ok h, s') →
      StateLE s s'
        ∧ ∀ s₂, StateLE s' s₂ → findFileInManifest env d fuel mf name s₂ = (.ok h, s₂) := by
  intro fuel
  induction fuel with
  | zero =>
    intro mf name s h s' hrun
    exact absurd hrun (by simp [findFileInManifest])
  | succ fuel ih =>
    intro mf name s h s' hrun
    cases hdec : env.decode mf with
    | none =>
      rw [ff_decode_none env d fuel mf name s hdec] at hrun
      exact absurd hrun (by simp)
    | some l =>
      cases hml : manifestLayers l with
      | none =>
        rw [ff_ml_none env d fuel mf name s l hdec hml] at hrun
        exact absurd hrun (by simp)
      | some li =>
        obtain ⟨layers, index⟩ := li
        by_cases hdg : findDigest layers name = []
        · rw [ff_digest_nil env d fuel mf name s l layers index hdec hml hdg] at hrun
          exact absurd hrun (by simp)
        · cases hph : env.parseHash (findDigest layers name) with
          | none =>
            rw [ff_hash_none env d fuel mf name s l layers index hdec hml hdg hph] at hrun
            exact absurd hrun (by simp)
          | some h0 =>
            cases index with
            | false =>
              rw [ff_image_ok env d fuel mf name s l layers h0 hdec hml hdg hph] at hrun
              injection hrun with h1 h2
              injection h1 with h1'
              subst h1'
              subst h2
              refine ⟨StateLE_refl s, ?_⟩
              intro s₂ _
              exact ff_image_ok env d fuel mf name s₂ l layers h0 hdec hml hdg hph
            | true =>
              rw [ff_index_gm env d fuel mf name s l layers h0 hdec hml hdg hph] at hrun
              rcases hgm : getManifest env (d.targetsRepo ++ '@' :: hashString h0) s
                with ⟨r, s1⟩
              rw [hgm] at hrun
              cases r with
              | error e =>
                simp only [] at hrun
                exact absurd hrun (by simp)
              | ok mf' =>
                simp only [] at hrun
                obtain ⟨hle1, hreplay1⟩ :=
                  ih mf' (((goSplitOn '/' name).getLast?).getD []) s1 h s' hrun
                have hle0 := getManifest_mono env _ s _ _ hgm
                have hcached := getManifest_ok_cached env _ s mf' s1 hgm
                refine ⟨StateLE_trans hle0 hle1, ?_⟩
                intro s₂ hs₂
                rw [ff_index_gm env d fuel mf name s₂ l layers h0 hdec hml hdg hph]
                have hlk : lookupS (d.targetsRepo ++ '@' :: hashString h0) s₂.cache
                    = some mf' := hs₂ _ _ (hle1 _ _ hcached)
                rw [getManifest_replay env _ s₂ mf' hlk]
                simp only []
                exact hreplay1 s₂ hs₂

theorem df_unfold (env : RegEnv) (d : RegistryFetcher) (p : Str) (ml : Int) (fuel : Nat)
    (s : RegState) (imgRef fileName : Str)
    (hparse : parseImgRef d p = some (imgRef, fileName)) :
    RegistryFetcher.DownloadFile env d p ml fuel s
      = (match getManifest env imgRef s with
        | (.error e, s') => (.error e, s')
        | (.ok mf, s') =>
          match findFileInManifest env d fuel mf fileName s' with
          | (.error _, s'') => (.error (.httpErr 404 []), s'')
          | (.ok h, s'') =>
            match goSplitOn ':' imgRef with
            | [p0, _] => pullFileLayer env (p0 ++ '@' :: hashString h) ml s''
            | [p0, p1, _] => pullFileLayer env (p0 ++ ':' :: (p1 ++ '@' :: hashString h)) ml s''
            | _ => (.error (.invalidRef imgRef), s'')) := by
  unfold RegistryFetcher.DownloadFile
  rw [hparse]

theorem downloadFile_ok_replay (env : RegEnv) (d : RegistryFetcher) (p : Str) (ml : Int)
    (fuel : Nat) (s : RegState) (bytes : Str) (s' : RegState)
    (hrun : RegistryFetcher.DownloadFile env d p ml fuel s = (.ok bytes, s')) :
    RegistryFetcher.DownloadFile env d p ml fuel s' = (.ok bytes, s') := by
  cases hparse : parseImgRef d p with
  | none =>
    unfold RegistryFetcher.DownloadFile at hrun
    rw [hparse] at hrun
    exact absurd hrun (by simp)
  | some pr =>
    obtain ⟨imgRef, fileName⟩ := pr
    rw [df_unfold env d p ml fuel s imgRef fileName hparse] at hrun
    rw [df_unfold env d p ml fuel s' imgRef fileName hparse]
    rcases hgm : getManifest env imgRef s with ⟨r, s1⟩
    rw [hgm] at hrun
    cases r with
    | error e =>
      simp only [] at hrun
      exact absurd hrun (by simp)
    | ok mf =>
      simp only [] at hrun
      rcases hff : findFileInManifest env d fuel mf fileName s1 with ⟨rf, s2⟩
      rw [hff] at hrun
      cases rf with
      | error e =>
        simp only [] at hrun
        exact absurd hrun (by simp)
      | ok h =>
        simp only [] at hrun
        have hgm_cached := getManifest_ok_cached env imgRef s mf s1 hgm
        obtain ⟨hle12, hffreplay⟩ := findFile_mono_replay env d fuel mf fileName s1 h s2 hff
        cases hsplit : goSplitOn ':' imgRef with
        | nil =>
          rw [hsplit] at hrun
          simp only [] at hrun
          exact absurd hrun (by simp)
        | cons p0 rest =>
          cases rest with
          | nil =>
            rw [hsplit] at hrun
            simp only [] at hrun
            exact absurd hrun (by simp)
          | cons p1 rest2 =>
            cases rest2 with
            | nil =>
              -- two parts: pull from p0 ++ '@' :: hashString h
              rw [hsplit] at hrun
              simp only [] at hrun
              have hpl_cached := pullFileLayer_ok_cached env _ ml s2 bytes s' hrun
              have hle23 := pullFileLayer_mono env _ ml s2 _ s' hrun
              have hlk_mf : lookupS imgRef s'.cache = some mf :=
                hle23 _ _ (hle12 _ _ hgm_cached)
              rw [getManifest_replay env imgRef s' mf hlk_mf]
              simp only []
              rw [hffreplay s' hle23]
              simp only []
              exact pullFileLayer_replay env _ ml s' bytes hpl_cached
            | cons p2 rest3 =>
              cases rest3 with
              | nil =>
                -- three parts: custom host port
                rw [hsplit] at hrun
                simp only [] at hrun
                have hpl_cached := pullFileLayer_ok_cached env _ ml s2 bytes s' hrun
                have hle23 := pullFileLayer_mono env _ ml s2 _ s' hrun
                have hlk_mf : lookupS imgRef s'.cache = some mf :=
                  hle23 _ _ (hle12 _ _ hgm_cached)
                rw [getManifest_replay env imgRef s' mf hlk_mf]
                simp only []
                rw [hffreplay s' hle23]
                simp only []
                exact pullFileLayer_replay env _ ml s' bytes hpl_cached
              | cons p3 rest4 =>
                rw [hsplit] at hrun
                simp only [] at hrun
                exact absurd hrun (by simp)

/-- C5.  Fetching the same address twice through one fetcher instance:
a second `DownloadFile` run starting from the state a successful run
produced returns the identical bytes and leaves the state — cache and
both network pull counters — unchanged, so no additional manifest or
layer is pulled.  Moreover both caches are consulted before the network
(a cached `repo:tag` manifest or `repo@digest` layer is returned with no
state change) and are write-once (neither operation ever removes or
overwrites an existing cache binding). -/
theorem registry_fetch_idempotent :
    (∀ (env : RegEnv) (d : RegistryFetcher) (p : Str) (ml : Int) (fuel : Nat)
        (s : RegState) (bytes : Str) (s' : RegState),
      RegistryFetcher.DownloadFile env d p ml fuel s = (.ok bytes, s') →
      RegistryFetcher.DownloadFile env d p ml fuel s' = (.ok bytes, s'))
  ∧ (∀ (env : RegEnv) (ref : Str) (s : RegState) (mf : Str),
      lookupS ref s.cache = some mf → getManifest env ref s = (.ok mf, s))
  ∧ (∀ (env : RegEnv) (ref : Str) (ml : Int) (s : RegState) (data : Str),
      lookupS ref s.cache = some data → pullFileLayer env ref ml s = (.ok data, s))
  ∧ (∀ (env : RegEnv) (ref : Str) (s : RegState) (r : Except FetchErr Str) (s' : RegState),
      getManifest env ref s = (r, s') →
      ∀ k v, lookupS k s.cache = some v → lookupS k s'.cache = some v)
  ∧ (∀ (env : RegEnv) (ref : Str) (ml : Int) (s : RegState) (r : Except FetchErr Str)
        (s' : RegState),
      pullFileLayer env ref ml s = (r, s') →
      ∀ k v, lookupS k s.cache = some v → lookupS k s'.cache = some v) :=
  ⟨fun env d p ml fuel s bytes s' h => downloadFile_ok_replay env d p ml fuel s bytes s' h,
    fun env ref s mf h => getManifest_replay env ref s mf h,
    fun env ref ml s data h => pullFileLayer_replay env ref ml s data h,
    fun env ref s r s' h => getManifest_mono env ref s r s' h,
    fun env ref ml s r s' h => pullFileLayer_mono env ref ml s r s' h⟩

/-- Decidable equality of fetch results, for evaluating concrete runs. -/
instance decEqExceptFetch {α : Type} [DecidableEq α] : DecidableEq (Except FetchErr α) :=
  fun a b =>
    match a, b with
    | .ok x, .ok y => if h : x = y then isTrue (by rw [h]) else isFalse (by simp [h])
    | .error x, .error y => if h : x = y then isTrue (by rw [h]) else isFalse (by simp [h])
    | .ok _, .error _ => isFalse (by simp)
    | .error _, .ok _ => isFalse (by simp)

/-- A one-manifest, one-layer registry environment for the concrete instances. -/
def wEnv : RegEnv where
  net := fun ref => if ref = "ex/md:latest".data then some "MF1".data else none
  netLayer := fun ref =>
    if ref = "ex/md@sha256:ab".data then some ⟨some 2, some "hi".data⟩ else none
  decode := fun b =>
    if b = "MF1".data then
      some ⟨[⟨[(tufFilenameKey, "root.json".data)], "sha256:ab".data⟩], [], ociManifestMT⟩
    else none
  parseHash := fun dg =>
    if dg = "sha256:ab".data then some ⟨"sha256".data, "ab".data⟩ else none

/-- The fetcher configuration for the concrete instances. -/
def wFetcher : RegistryFetcher where
  metadataRepo := "ex/md".data
  metadataTag := latestTag
  targetsRepo := "ex/tg".data
  targetsTag := latestTag
  metadataURL := "oci://ex/md".data
  targetsURL := "oci://ex/tg".data

/-- The state after one successful fetch of `root.json` through `wEnv`. -/
def wState1 : RegState :=
  ⟨[("ex/md@sha256:ab".data, "hi".data), ("ex/md:latest".data, "MF1".data)], 1, 1⟩

example : RegistryFetcher.DownloadFile wEnv wFetcher "oci://ex/md/root.json".data 10 5 ⟨[], 0, 0⟩
    = (.ok "hi".data, wState1) := by decide

/-- Witness for `registry_fetch_idempotent`: replaying the concrete fetch
from its own post-state returns the same bytes with the state unchanged. -/
theorem registry_fetch_idempotent_witness :
    RegistryFetcher.DownloadFile wEnv wFetcher "oci://ex/md/root.json".data 10 5 wState1
      = (.ok "hi".data, wState1) :=
  registry_fetch_idempotent.1 wEnv wFetcher "oci://ex/md/root.json".data 10 5
    ⟨[], 0, 0⟩ "hi".data wState1 (by decide)

/-- C6.  Pulling a resolved content layer with a caller-supplied
`maxLength`: the result is a LengthMismatch error — never the NotFound
(`ErrDownloadHTTP`) signal — whenever the manifest-declared size or the
actual decompressed byte count exceeds `maxLength`, and the decompressed
bytes otherwise; `pullFileLayer` surfaces exactly this result on a cache
miss. -/
theorem layer_maxLength_check :
    (∀ (sz : Int) (content : Str) (maxLength : Int),
      ((sz > maxLength ∨ (content.length : Int) > maxLength) →
        (∃ l e, getDataFromLayer ⟨some sz, some content⟩ maxLength
            = .error (.lengthMismatch l e))
        ∧ ∀ st u, ¬ getDataFromLayer ⟨some sz, some content⟩ maxLength
            = .error (.httpErr st u))
      ∧ (sz ≤ maxLength → (content.length : Int) ≤ maxLength →
        getDataFromLayer ⟨some sz, some content⟩ maxLength = .ok content))
  ∧ (∀ (env : RegEnv) (ref : Str) (maxLength : Int) (s : RegState) (layer : GoLayer),
      lookupS ref s.cache = none → env.netLayer ref = some layer →
      (pullFileLayer env ref maxLength s).1 = getDataFromLayer layer maxLength) := by
  constructor
  · intro sz content maxLength
    constructor
    · intro hex
      by_cases hsz : sz > maxLength
      · constructor
        · exact ⟨sz, maxLength, by simp [getDataFromLayer, hsz]⟩
        · intro st u heq
          simp [getDataFromLayer, hsz] at heq
      · have hcl : (content.length : Int) > maxLength := by
          rcases hex with h | h
          · exact absurd h hsz
          · exact h
        have hdl : ((content.take (maxLength + 1).toNat).length : Int) > maxLength := by
          rw [List.length_take]
          omega
        constructor
        · refine ⟨(content.take (maxLength + 1).toNat).length, maxLength, ?_⟩
          simp [getDataFromLayer, hsz, hdl]
          omega
        · intro st u heq
          simp [getDataFromLayer, hsz] at heq
          split at heq <;> simp_all
    · intro h1 h2
      have hnot : ¬ sz > maxLength := by omega
      have htake : content.take (maxLength + 1).toNat = content := by
        apply List.take_of_length_le
        omega
      have hdl : ¬ ((content.take (maxLength + 1).toNat).length : Int) > maxLength := by
        rw [htake]
        omega
      simp [getDataFromLayer, hnot, hdl, htake]
      omega
  · intro env ref maxLength s layer hl hn
    cases hg : getDataFromLayer layer maxLength with
    | error e =>
      rw [pullFileLayer_miss_err env ref maxLength s layer e hl hn hg]
    | ok data =>
      rw [pullFileLayer_miss_ok env ref maxLength s layer data hl hn hg]

/-- Witness for `layer_maxLength_check` at concrete layers: a declared
size above the limit is a LengthMismatch and not an HTTP error; a layer
within the limit yields its bytes. -/
theorem layer_maxLength_check_witness :
    ((∃ l e, getDataFromLayer ⟨some 5, some "abc".data⟩ 2 = .error (.lengthMismatch l e))
      ∧ ∀ st u, ¬ getDataFromLayer ⟨some 5, some "abc".data⟩ 2 = .error (.httpErr st u))
    ∧ getDataFromLayer ⟨some 2, some "hi".data⟩ 10 = .ok "hi".data :=
  ⟨(layer_maxLength_check.1 5 "abc".data 2).1 (Or.inl (by decide)),
    (layer_maxLength_check.1 2 "hi".data 10).2 (by decide) (by decide)⟩

/-- C10.  Every failure of the manifest search — an unparseable manifest,
an unrecognized media type, an unparseable descriptor digest, or a failed
sub-manifest pull while recursing through an index — is reported by
`DownloadFile` as the same `ErrDownloadHTTP` 404 signal used for an
absent filename, never as a Transport or Configuration error. -/
theorem manifest_search_failure_notFound :
    (∀ (env : RegEnv) (d : RegistryFetcher) (p : Str) (ml : Int) (fuel : Nat)
        (s : RegState) (imgRef fileName mf : Str) (s1 : RegState) (e : FetchErr)
        (s2 : RegState),
      parseImgRef d p = some (imgRef, fileName) →
      getManifest env imgRef s = (.ok mf, s1) →
      findFileInManifest env d fuel mf fileName s1 = (.error e, s2) →
      RegistryFetcher.DownloadFile env d p ml fuel s = (.error (.httpErr 404 []), s2))
  ∧ (∀ (env : RegEnv) (d : RegistryFetcher) (fuel : Nat) (mf name : Str) (s : RegState),
      env.decode mf = none →
      findFileInManifest env d (fuel + 1) mf name s = (.error .jsonErr, s))
  ∧ (∀ (env : RegEnv) (d : RegistryFetcher) (fuel : Nat) (mf name : Str) (s : RegState)
        (l : LayersStruct),
      env.decode mf = some l → manifestLayers l = none →
      findFileInManifest env d (fuel + 1) mf name s
        = (.error (.invalidMediaType l.mediaType), s))
  ∧ (∀ (env : RegEnv) (d : RegistryFetcher) (fuel : Nat) (mf name : Str) (s : RegState)
        (l : LayersStruct) (layers : List LayerDesc) (index : Bool),
      env.decode mf = some l → manifestLayers l = some (layers, index) →
      ¬ findDigest layers name = [] →
      env.parseHash (findDigest layers name) = none →
      findFileInManifest env d (fuel + 1) mf name s
        = (.error (.hashParseErr (findDigest layers name)), s))
  ∧ (∀ (env : RegEnv) (d : RegistryFetcher) (fuel : Nat) (mf name : Str) (s : RegState)
        (l : LayersStruct) (layers : List LayerDesc) (h : GoHash) (e : FetchErr)
        (s1 : RegState),
      env.decode mf = some l → manifestLayers l = some (layers, true) →
      ¬ findDigest layers name = [] →
      env.parseHash (findDigest layers name) = some h →
      getManifest env (d.targetsRepo ++ '@' :: hashString h) s = (.error e, s1) →
      findFileInManifest env d (fuel + 1) mf name s = (.error e, s1)) := by
  refine ⟨?_, ?_, ?_, ?_, ?_⟩
  · intro env d p ml fuel s imgRef fileName mf s1 e s2 hparse hgm hff
    rw [df_unfold env d p ml fuel s imgRef fileName hparse, hgm]
    simp only []
    rw [hff]
  · intro env d fuel mf name s hdec
    exact ff_decode_none env d fuel mf name s hdec
  · intro env d fuel mf name s l hdec hml
    exact ff_ml_none env d fuel mf name s l hdec hml
  · intro env d fuel mf name s l layers index hdec hml hdg hph
    exact ff_hash_none env d fuel mf name s l layers index hdec hml hdg hph
  · intro env d fuel mf name s l layers h e s1 hdec hml hdg hph hgm
    rw [ff_index_gm env d fuel mf name s l layers h hdec hml hdg hph, hgm]

/-- Witness for `manifest_search_failure_notFound` at a concrete run: the
environment decodes no manifest, so the search fails and `DownloadFile`
reports 404. -/
theorem manifest_search_failure_notFound_witness :
    RegistryFetcher.DownloadFile
        ⟨fun _ => some "JUNK".data, fun _ => none, fun _ => none, fun _ => none⟩
        wFetcher "oci://ex/md/root.json".data 10 5 ⟨[], 0, 0⟩
      = (.error (.httpErr 404 []),
          ⟨[("ex/md:latest".data, "JUNK".data)], 1, 0⟩) :=
  manifest_search_failure_notFound.1
    ⟨fun _ => some "JUNK".data, fun _ => none, fun _ => none, fun _ => none⟩
    wFetcher "oci://ex/md/root.json".data 10 5 ⟨[], 0, 0⟩
    "ex/md:latest".data "root.json".data "JUNK".data
    ⟨[("ex/md:latest".data, "JUNK".data)], 1, 0⟩ .jsonErr
    ⟨[("ex/md:latest".data, "JUNK".data)], 1, 0⟩
    (by decide) (by decide) (by decide)

/-- Environment for the C7 concrete runs: every manifest pull returns the
bytes `MF1`, which decode to an image manifest whose single layer is
annotated with filename `root.json` only. -/
def w7Env : RegEnv where
  net := fun _ => some "MF1".data
  netLayer := fun _ => none
  decode := fun b =>
    if b = "MF1".data then
      some ⟨[⟨[(tufFilenameKey, "root.json".data)], "sha256:ab".data⟩], [], ociManifestMT⟩
    else none
  parseHash := fun _ => none

/-- C7.  If the requested filename matches no candidate descriptor's
filename annotation in the resolved manifest (linear scan over the
layer/manifest descriptors; in the index case the full name is the scan
key at the first level), the search fails with the file-not-found error
and `DownloadFile` reports NotFound (`ErrDownloadHTTP` 404) — shown
generally and on concrete runs against both the metadata repository and
the targets repository. -/
theorem download_missing_file_notFound :
    (∀ (env : RegEnv) (d : RegistryFetcher) (fuel : Nat) (mf name : Str) (s : RegState)
        (l : LayersStruct) (layers : List LayerDesc) (index : Bool),
      env.decode mf = some l → manifestLayers l = some (layers, index) →
      layers.find? (fun ld => annGet ld.annotations tufFilenameKey = name) = none →
      findFileInManifest env d (fuel + 1) mf name s = (.error (.fileNotFound name), s))
  ∧ (∀ (env : RegEnv) (d : RegistryFetcher) (p : Str) (ml : Int) (fuel : Nat) (s : RegState)
        (imgRef fileName mf : Str) (s1 : RegState) (l : LayersStruct)
        (layers : List LayerDesc) (index : Bool),
      parseImgRef d p = some (imgRef, fileName) →
      getManifest env imgRef s = (.ok mf, s1) →
      env.decode mf = some l → manifestLayers l = some (layers, index) →
      layers.find? (fun ld => annGet ld.annotations tufFilenameKey = fileName) = none →
      RegistryFetcher.DownloadFile env d p ml (fuel + 1) s
        = (.error (.httpErr 404 []), s1))
  ∧ RegistryFetcher.DownloadFile wEnv wFetcher "oci://ex/md/timestamp.json".data 10 5 ⟨[], 0, 0⟩
      = (.error (.httpErr 404 []), ⟨[("ex/md:latest".data, "MF1".data)], 1, 0⟩)
  ∧ RegistryFetcher.DownloadFile w7Env wFetcher "oci://ex/tg/f.txt".data 10 5 ⟨[], 0, 0⟩
      = (.error (.httpErr 404 []), ⟨[("ex/tg:f.txt".data, "MF1".data)], 1, 0⟩) := by
  have hscan : ∀ (env : RegEnv) (d : RegistryFetcher) (fuel : Nat) (mf name : Str)
      (s : RegState) (l : LayersStruct) (layers : List LayerDesc) (index : Bool),
      env.decode mf = some l → manifestLayers l = some (layers, index) →
      layers.find? (fun ld => annGet ld.annotations tufFilenameKey = name) = none →
      findFileInManifest env d (fuel + 1) mf name s = (.error (.fileNotFound name), s) := by
    intro env d fuel mf name s l layers index hdec hml hfind
    have hdg : findDigest layers name = [] := by simp [findDigest, hfind]
    exact ff_digest_nil env d fuel mf name s l layers index hdec hml hdg
  refine ⟨hscan, ?_, by decide, by decide⟩
  intro env d p ml fuel s imgRef fileName mf s1 l layers index hparse hgm hdec hml hfind
  rw [df_unfold env d p ml (fuel + 1) s imgRef fileName hparse, hgm]
  simp only []
  rw [hscan env d fuel mf fileName s1 l layers index hdec hml hfind]

/-- Witness for `download_missing_file_notFound` at a concrete run on the
targets repository: the requested file has no matching annotation, and
the caller sees 404. -/
theorem download_missing_file_notFound_witness :
    RegistryFetcher.DownloadFile w7Env wFetcher "oci://ex/tg/g.bin".data 10 5 ⟨[], 0, 0⟩
      = (.error (.httpErr 404 []), ⟨[("ex/tg:g.bin".data, "MF1".data)], 1, 0⟩) :=
  download_missing_file_notFound.2.1 w7Env wFetcher "oci://ex/tg/g.bin".data 10 4 ⟨[], 0, 0⟩
    "ex/tg:g.bin".data "g.bin".data "MF1".data ⟨[("ex/tg:g.bin".data, "MF1".data)], 1, 0⟩
    ⟨[⟨[(tufFilenameKey, "root.json".data)], "sha256:ab".data⟩], [], ociManifestMT⟩
    [⟨[(tufFilenameKey, "root.json".data)], "sha256:ab".data⟩] false
    (by decide) (by decide) (by decide) (by decide) (by decide)

/-- Result of `os.ReadFile`: the file's bytes, a not-exist error
(`os.ErrNotExist`), or any other read error. -/
inductive FileRes where
  | found : Str → FileRes
  | notExist : FileRes
  | readErr : FileRes
deriving DecidableEq

/-- The external world of the Filesystem/HTTP fetcher: the local
filesystem keyed by path, and the HTTP client keyed by URL (`none`
models a transport error, otherwise the response status and body). -/
structure FsEnv where
  fs : Str → FileRes
  http : Str → Option (Nat × Str)

/-- Scheme marker of a `file://` URL; `url.Parse` on `"file://" ++ p`
yields scheme `file` and path `p`, which is how the client builds these
URLs. -/
def fileScheme : Str := "file://".data

/-- Embedding of `FilesystemFetcher.DownloadFile`: a `file` URL is read
whole from the filesystem (not-exist becomes an `ErrDownloadHTTP` 404
carrying the URL, any other read error is wrapped) and only then checked
against `maxLength`; any other URL goes over HTTP, where a non-200
status becomes an `ErrDownloadHTTP` with that status, and the body is
read through a `LimitReader` of `maxLength + 1` when a bound is set. -/
def FilesystemFetcher.DownloadFile (env : FsEnv) (urlPath : Str) (maxLength : Int) :
    Except FetchErr Str :=
  if goHasPre urlPath fileScheme then
    match env.fs (goTrimPre urlPath fileScheme) with
    | .notExist => .error (.httpErr 404 urlPath)
    | .readErr => .error (.readFail (goTrimPre urlPath fileScheme))
    | .found data =>
      if maxLength > 0 ∧ (data.length : Int) > maxLength then
        .error (.sizeExceeded data.length maxLength)
      else .ok data
  else
    match env.http urlPath with
    | none => .error (.transportErr urlPath)
    | some (status, body) =>
      if status = 200 then
        let data := if maxLength > 0 then body.take (maxLength + 1).toNat else body
        if maxLength > 0 ∧ (data.length : Int) > maxLength then
          .error (.respSizeExceeded maxLength)
        else .ok data
      else .error (.httpErr status urlPath)

/-- C9.  For a local-path address the fetcher reads the complete file and
only then validates against `maxLength` — the size-violation error
carries the full actual length and is distinct from the NotFound signal —
while a missing local file and an HTTP not-found response both surface as
the same `ErrDownloadHTTP` status-404 error. -/
theorem filesystem_fetch_errors :
    (∀ (env : FsEnv) (urlPath data : Str) (maxLength : Int),
      goHasPre urlPath fileScheme = true →
      env.fs (goTrimPre urlPath fileScheme) = .found data →
      ¬ (maxLength > 0 ∧ (data.length : Int) > maxLength) →
      FilesystemFetcher.DownloadFile env urlPath maxLength = .ok data)
  ∧ (∀ (env : FsEnv) (urlPath data : Str) (maxLength : Int),
      goHasPre urlPath fileScheme = true →
      env.fs (goTrimPre urlPath fileScheme) = .found data →
      maxLength > 0 → (data.length : Int) > maxLength →
      FilesystemFetcher.DownloadFile env urlPath maxLength
          = .error (.sizeExceeded data.length maxLength)
        ∧ ∀ st u, ¬ FilesystemFetcher.DownloadFile env urlPath maxLength
          = .error (.httpErr st u))
  ∧ (∀ (env : FsEnv) (urlPath : Str) (maxLength : Int),
      goHasPre urlPath fileScheme = true →
      env.fs (goTrimPre urlPath fileScheme) = .notExist →
      FilesystemFetcher.DownloadFile env urlPath maxLength
        = .error (.httpErr 404 urlPath))
  ∧ (∀ (env : FsEnv) (urlPath body : Str) (maxLength : Int),
      goHasPre urlPath fileScheme = false →
      env.http urlPath = some (404, body) →
      FilesystemFetcher.DownloadFile env urlPath maxLength
        = .error (.httpErr 404 urlPath))
  ∧ (∀ (envF envH : FsEnv) (urlF urlH body : Str) (mlF mlH : Int),
      goHasPre urlF fileScheme = true →
      envF.fs (goTrimPre urlF fileScheme) = .notExist →
      goHasPre urlH fileScheme = false →
      envH.http urlH = some (404, body) →
      ∃ st, FilesystemFetcher.DownloadFile envF urlF mlF = .error (.httpErr st urlF)
        ∧ FilesystemFetcher.DownloadFile envH urlH mlH = .error (.httpErr st urlH)) := by
  have hok : ∀ (env : FsEnv) (urlPath data : Str) (maxLength : Int),
      goHasPre urlPath fileScheme = true →
      env.fs (goTrimPre urlPath fileScheme) = .found data →
      ¬ (maxLength > 0 ∧ (data.length : Int) > maxLength) →
      FilesystemFetcher.DownloadFile env urlPath maxLength = .ok data := by
    intro env urlPath data maxLength hf hfs hnot
    unfold FilesystemFetcher.DownloadFile
    rw [if_pos hf, hfs]
    simp only []
    rw [if_neg hnot]
  have hmiss : ∀ (env : FsEnv) (urlPath : Str) (maxLength : Int),
      goHasPre urlPath fileScheme = true →
      env.fs (goTrimPre urlPath fileScheme) = .notExist →
      FilesystemFetcher.DownloadFile env urlPath maxLength
        = .error (.httpErr 404 urlPath) := by
    intro env urlPath maxLength hf hfs
    unfold FilesystemFetcher.DownloadFile
    rw [if_pos hf, hfs]
  have h404 : ∀ (env : FsEnv) (urlPath body : Str) (maxLength : Int),
      goHasPre urlPath fileScheme = false →
      env.http urlPath = some (404, body) →
      FilesystemFetcher.DownloadFile env urlPath maxLength
        = .error (.httpErr 404 urlPath) := by
    intro env urlPath body maxLength hf hh
    unfold FilesystemFetcher.DownloadFile
    rw [if_neg (by simp [hf]), hh]
    simp only []
    rw [if_neg (by decide)]
  refine ⟨hok, ?_, hmiss, h404, ?_⟩
  · intro env urlPath data maxLength hf hfs hpos hbig
    constructor
    · unfold FilesystemFetcher.DownloadFile
      rw [if_pos hf, hfs]
      simp only []
      rw [if_pos ⟨hpos, hbig⟩]
    · intro st u hcon
      unfold FilesystemFetcher.DownloadFile at hcon
      rw [if_pos hf, hfs] at hcon
      simp only [] at hcon
      rw [if_pos ⟨hpos, hbig⟩] at hcon
      exact FetchErr.noConfusion (Except.error.inj hcon)
  · intro envF envH urlF urlH body mlF mlH hfF hfsF hfH hhH
    exact ⟨404, hmiss envF urlF mlF hfF hfsF, h404 envH urlH body mlH hfH hhH⟩

/-- Environment for the `filesystem_fetch_errors` witness: one local file
of five bytes, and an HTTP server answering 404 to everything. -/
def wFsEnv : FsEnv where
  fs := fun p => if p = "/r/a.txt".data then .found "hello".data else .notExist
  http := fun _ => some (404, [])

/-- Witness for `filesystem_fetch_errors` on concrete runs: the local
file is returned whole within the bound, over-bound yields the size
error, and a missing file maps to the 404 signal. -/
theorem filesystem_fetch_errors_witness :
    FilesystemFetcher.DownloadFile wFsEnv "file:///r/a.txt".data 10 = .ok "hello".data
  ∧ FilesystemFetcher.DownloadFile wFsEnv "file:///r/a.txt".data 3
      = .error (.sizeExceeded 5 3)
  ∧ FilesystemFetcher.DownloadFile wFsEnv "file:///r/b.txt".data 10
      = .error (.httpErr 404 "file:///r/b.txt".data)
  ∧ FilesystemFetcher.DownloadFile wFsEnv "http://h/x".data 10
      = .error (.httpErr 404 "http://h/x".data) :=
  ⟨filesystem_fetch_errors.1 wFsEnv "file:///r/a.txt".data "hello".data 10
      (by decide) (by decide) (by decide),
   (filesystem_fetch_errors.2.1 wFsEnv "file:///r/a.txt".data "hello".data 3
      (by decide) (by decide) (by decide) (by decide)).1,
   filesystem_fetch_errors.2.2.1 wFsEnv "file:///r/b.txt".data 10 (by decide) (by decide),
   filesystem_fetch_errors.2.2.2.1 wFsEnv "http://h/x".data [] 10 (by decide) (by decide)⟩
